import Mathlib

/-! # govim: editor / language-server bridge

A shallow embedding of the session state kept by `cmd/govim/functions.go`
(live-buffer formatting, jump stack, document synchronisation, quickfix list,
completion), of the multi-file output of `rename.Run` and of
`mod.formatExplanation`, together with the properties the design document
states about them.

Conventions of the embedding:
* a Go `string` whose content the code inspects (buffer contents, replacement
  text) is a `Text`, the list of its characters; strings that are only passed
  around (URIs, names, messages) are `String`;
* a Go `error` result is an `Option String` (`none` is `nil`);
* calls made to the editor are recorded, in order, in a trace;
* the answers of the outside world (server replies, file system) are explicit
  inputs of each operation.
-/

namespace Govim

/-! ## Data model -/

/-- The characters of a Go string. -/
abbrev Text := List Char

deriving instance DecidableEq for Except

/-- The type protocol.Position: 0-based line and 0-based UTF-16 column. -/
structure Position where
  Line : Nat
  Character : Nat
deriving DecidableEq, Repr

/-- The type protocol.Range. -/
structure Range where
  Start : Position
  End : Position
deriving DecidableEq, Repr

/-- The type protocol.TextEdit. -/
structure TextEdit where
  Range : Range
  NewText : Text
deriving DecidableEq, Repr

/-- The type protocol.Location. -/
structure Location where
  URI : String
  Range : Range
deriving DecidableEq, Repr

/-- The type types.Buffer. -/
structure Buffer where
  Num : Int
  Name : String
  Contents : Text
  Version : Int
deriving DecidableEq, Repr

/-- The type types.Point: editor line and column (both 1-based) and the offset
into the contents. -/
structure Point where
  Line : Nat
  Col : Nat
  Offset : Nat
deriving DecidableEq, Repr

/-! ## Editor primitives used by the line-granular applier -/

/-- A line mutation requested from the editor. -/
inductive VimCall where
  | deletebufline (buf : Int) (first last : Int)
  | append (lnum : Int) (text : List Text)
deriving DecidableEq, Repr

/-- The editor function `deletebufline({buf}, {first}, {last})` on the lines of
the buffer: removes lines `first` to `last` (1-based, inclusive) and answers 0,
or answers 1 and removes nothing when the range does not start inside the
buffer or is reversed. -/
def deletebufline (lines : List Text) (first last : Int) : List Text × Int :=
  if first < 1 ∨ (lines.length : Int) < first ∨ last < first then (lines, 1)
  else (lines.take (first - 1).toNat ++ lines.drop last.toNat, 0)

/-- The editor function `append({lnum}, {list})`: inserts the lines of `text`
below line `lnum` (0 inserts above the first line) and answers 0, or answers 1
and inserts nothing when `lnum` is outside the buffer. -/
def append (lines : List Text) (lnum : Int) (text : List Text) : List Text × Int :=
  if lnum < 0 ∨ (lines.length : Int) < lnum then (lines, 1)
  else (lines.take lnum.toNat ++ text ++ lines.drop lnum.toNat, 0)

/-- The content of a buffer whose lines in the editor are `lines`: every line
followed by a newline. -/
def bufContents (lines : List Text) : Text :=
  (lines.map (fun l => l ++ ['\n'])).flatten

/-- The Go call `strings.Split(s, "\n")`. -/
def splitNewline : Text → List Text
  | [] => [[]]
  | c :: cs =>
    if c = '\n' then [] :: splitNewline cs
    else (c :: (splitNewline cs).headD []) :: (splitNewline cs).tail

/-- The statement `if s[len(s)-1] == '\n' { s = s[:len(s)-1] }` of
formatCurrentBuffer. -/
def stripNewline (s : Text) : Text :=
  if s.getLast? = some '\n' then s.dropLast else s

/-! ## formatCurrentBuffer: the edit loop -/

/-- The lines of the live buffer and the line mutations issued so far. -/
structure LoopState where
  lines : List Text
  calls : List VimCall
deriving DecidableEq, Repr

/-- The body of the loop `for ie := len(edits) - 1; ie >= 0; ie--` of
formatCurrentBuffer, over the edits in the order the loop visits them (last
edit first). `pfp` is types.PointFromPosition. The result is the error
returned (if any) and the state of the buffer at that moment. The error texts
are those of the calls of `fmt.Errorf`, without the values formatted into them
by `%v` and `%q` (the error of PointFromPosition apart). -/
def editLoop (pfp : Buffer → Position → Except String Point) (b : Buffer) :
    List TextEdit → LoopState → Option String × LoopState
  | [], s => (none, s)
  | e :: rest, s =>
    match pfp b e.Range.Start with
    | .error err => (some ("failed to derive start point from position: " ++ err), s)
    | .ok start =>
      match pfp b e.Range.End with
      | .error err => (some ("failed to derive end point from position: " ++ err), s)
      | .ok stop =>
        if start.Col ≠ 1 ∨ stop.Col ≠ 1 then
          (some "saw an edit where start col != end col. We can't currently handle this", s)
        else if start.Line ≠ stop.Line then
          if e.NewText ≠ [] then
            (some "saw an edit where start line != end line with replacement text; We can't currently handle this", s)
          else
            let first : Int := start.Line
            let last : Int := (stop.Line : Int) - 1
            let r := deletebufline s.lines first last
            let s1 : LoopState := ⟨r.1, s.calls ++ [VimCall.deletebufline b.Num first last]⟩
            if r.2 ≠ 0 then (some "deletebufline failed", s1)
            else editLoop pfp b rest s1
        else
          if e.NewText = [] then editLoop pfp b rest s
          else
            let repl := splitNewline (stripNewline e.NewText)
            let lnum : Int := (start.Line : Int) - 1
            let r := append s.lines lnum repl
            editLoop pfp b rest ⟨r.1, s.calls ++ [VimCall.append lnum repl]⟩

/-- The whole loop of formatCurrentBuffer on the edit list as the server
returned it, starting from the buffer lines `lines`. -/
def formatLoop (pfp : Buffer → Position → Except String Point) (b : Buffer)
    (edits : List TextEdit) (lines : List Text) : Option String × LoopState :=
  editLoop pfp b edits.reverse ⟨lines, []⟩

/-! ## Position translation and the generic edit applier -/

/-- Modelled from the spec: the number of UTF-16 code units of a code point
(§4.1: a code point outside the Basic Multilingual Plane takes two units). -/
def utf16Width (c : Char) : Nat := if c.toNat < 65536 then 1 else 2

/-- Modelled from the spec: the walk over the decoded code points of a line
(§4.1) that turns a protocol column, counted in UTF-16 code units, into the
number of code points before it; `none` when the column is outside the line or
inside a code point. -/
def colOfUTF16 : Text → Nat → Option Nat
  | _, 0 => some 0
  | [], _ + 1 => none
  | c :: cs, n + 1 =>
    if n + 1 < utf16Width c then none
    else (colOfUTF16 cs (n + 1 - utf16Width c)).map (fun k => k + 1)

/-- The offset at which line `n` (0-based) starts, given the lines of the
contents. -/
def lineStart (segs : List Text) (n : Nat) : Nat :=
  ((segs.take n).map (fun l => l.length + 1)).sum

/-- Modelled from the spec: types.PointFromPosition, which is not among the
sources. §4.1: the editor line is the protocol line plus one, the editor column
is one plus the position reached by walking the line's code points, and the
translation fails when the line or the column is outside the buffer's current
content. -/
def PointFromPosition (b : Buffer) (pos : Position) : Except String Point :=
  let segs := splitNewline b.Contents
  match segs.get? pos.Line with
  | none => .error "line out of range"
  | some l =>
    match colOfUTF16 l pos.Character with
    | none => .error "column out of range"
    | some c => .ok ⟨pos.Line + 1, c + 1, lineStart segs pos.Line + c⟩

/-- The type diff.TextEdit: a span of the content, as a pair of offsets, and
the text replacing it. -/
structure DiffEdit where
  Start : Nat
  End : Nat
  NewText : Text
deriving DecidableEq, Repr

/-- Modelled from the spec: source.FromProtocolEdits, which is not among the
sources: every protocol range is resolved against the content (§4.1) into the
offsets of its two ends. -/
def FromProtocolEdits (b : Buffer) : List TextEdit → Except String (List DiffEdit)
  | [] => .ok []
  | e :: rest =>
    match PointFromPosition b e.Range.Start, PointFromPosition b e.Range.End with
    | .ok start, .ok stop =>
      match FromProtocolEdits b rest with
      | .ok ds => .ok (⟨start.Offset, stop.Offset, e.NewText⟩ :: ds)
      | .error err => .error err
    | .error err, _ => .error err
    | _, .error err => .error err

/-- One splice of the generic applier: the span is replaced by the new text. -/
def spliceEdit (content : Text) (e : DiffEdit) : Text :=
  content.take e.Start ++ e.NewText ++ content.drop e.End

/-- Modelled from the spec: diff.ApplyEdits, which is not among the sources.
§4.2: the edits carry offsets into the original content and are spliced in from
the highest starting offset to the lowest, so that a splice already made never
moves the span of one still to be made. -/
def ApplyEdits (before : Text) (edits : List DiffEdit) : Text :=
  (List.insertionSort (fun x y => x.Start ≤ y.Start) edits).foldr
    (fun e acc => spliceEdit acc e) before

/-- The string the file-level tools compute in format.Run:
`diff.ApplyEdits(string(file.mapper.Content), sedits)` with
`sedits = source.FromProtocolEdits(file.mapper, edits)`. -/
def formatted (b : Buffer) (edits : List TextEdit) : Except String Text :=
  match FromProtocolEdits b edits with
  | .ok sedits => .ok (ApplyEdits b.Contents sedits)
  | .error err => .error err

/-! ## Session state -/

/-- Modelled from the spec: the method `URI` of types.Buffer, which is not among
the sources: the location identifier (§3) of the file the buffer is named
after. -/
def Buffer.URI (b : Buffer) : String := "file://" ++ b.Name

/-- The type protocol.Diagnostic (the fields the session reads). -/
structure Diagnostic where
  Range : Range
  Message : String
deriving DecidableEq, Repr

/-- The type protocol.CompletionItem (the fields the session reads). -/
structure CompletionItem where
  Label : String
  Detail : String
  TextEdit : TextEdit
deriving DecidableEq, Repr

/-- The type protocol.CompletionList. -/
structure CompletionList where
  Items : List CompletionItem
deriving DecidableEq, Repr

/-- A Go slice value: `none` is the nil slice. -/
abbrev Slice (α : Type) := Option (List α)

/-- The Go call `append(s, x)`. -/
def Slice.push {α : Type} (s : Slice α) (x : α) : Slice α := some (s.getD [] ++ [x])

/-- The elements of a slice. -/
def Slice.elems {α : Type} (s : Slice α) : List α := s.getD []

/-- Lookup `m[k]` in a Go map, given as its entries in iteration order. -/
def mapGet {κ β : Type} [DecidableEq κ] (m : List (κ × β)) (k : κ) : Option β :=
  (m.find? (fun kv => decide (kv.1 = k))).map (fun kv => kv.2)

/-- Assignment `m[k] = x` in a Go map. -/
def mapSet {κ β : Type} [DecidableEq κ] (m : List (κ × β)) (k : κ) (x : β) : List (κ × β) :=
  (k, x) :: m.filter (fun kv => decide (kv.1 ≠ k))

/-- The struct vimstate. Maps are lists of entries with distinct keys, in the
order a `range` loop visits them. -/
structure vimstate where
  buffers : List (Int × Buffer)
  diagnostics : List (String × List Diagnostic)
  diagnosticsChanged : Bool
  jumpStack : List Location
  jumpStackPos : Int
  lastCompleteResults : Option CompletionList
deriving DecidableEq, Repr

/-! ## formatCurrentBuffer -/

/-- The values of config.FormatOnSave the function distinguishes. -/
inductive FormatOnSave where
  | none
  | gofmt
  | goimports
  | unknown (tool : String)
deriving DecidableEq, Repr

/-- A command sent to the editor by formatCurrentBuffer. -/
inductive EditorCmd where
  | ex (cmd : String)
  | toggleOnViewportChange
  | vim (call : VimCall)
deriving DecidableEq, Repr

/-- The answers formatCurrentBuffer gets from the editor, the server and the
file system during one call. -/
structure FormatWorld where
  -- The value of config.GlobalFormatOnSave.
  tool : FormatOnSave
  -- The current buffer number, from `v.Viewport()`.
  viewport : Except String Int
  -- The reply of `server.Formatting`.
  formatting : Except String (List TextEdit)
  -- The reply of `server.CodeAction`: per action, its map `Edit.Changes`.
  codeAction : Except String (List (String → List TextEdit))
  -- The name of the file `ioutil.TempFile` created.
  tempFile : Except String String
  -- Whether `os.Stat` finds the undo file when the deferred function runs.
  undoFilePresent : Bool
  -- The result of `os.Remove` on the undo file.
  removeResult : Option String
  -- The value of `&eventignore`.
  eventignore : String
  -- The function types.PointFromPosition.
  pfp : Buffer → Position → Except String Point

/-- The edits formatCurrentBuffer obtains for buffer `b` (the `switch` on the
format tool); `.error r` is an early return with result `r`. -/
def formatEdits (w : FormatWorld) (b : Buffer) : Except (Option String) (List TextEdit) :=
  match w.tool with
  | .none => .error none
  | .gofmt =>
    match w.formatting with
    | .error err => .error (some ("failed to call gopls.Formatting: " ++ err))
    | .ok edits => .ok edits
  | .goimports =>
    match w.codeAction with
    | .error err => .error (some ("failed to call gopls.CodeAction: " ++ err))
    | .ok [] => .error none
    | .ok [action] => .ok (action b.URI)
    | .ok _ => .error (some "don't know how to handle actions")
  | .unknown _ => .error (some "unknown format tool specified")

/-- The function vimstate.formatCurrentBuffer: the error returned, the lines
of the buffer afterwards and the commands sent to the editor. The deferred
calls run in reverse order of registration; the deferred function that reloads
the undo file assigns the result of `os.Remove` to the named result `err`. -/
def formatCurrentBuffer (w : FormatWorld) (v : vimstate) (lines : List Text) :
    Option String × List Text × List EditorCmd :=
  match w.viewport with
  | .error err => (some err, lines, [])
  | .ok bufnr =>
    match mapGet v.buffers bufnr with
    | none => (some "failed to resolve buffer", lines, [])
    | some b =>
      match formatEdits w b with
      | .error r => (r, lines, [])
      | .ok edits =>
        match w.tempFile with
        | .error _ => (some "failed to create temp undo file", lines, [])
        | .ok tf =>
          let r := formatLoop w.pfp b edits lines
          let before := [EditorCmd.ex ("wundo! " ++ tf), EditorCmd.ex "set eventignore=all",
            EditorCmd.toggleOnViewportChange]
          let deferred := [EditorCmd.toggleOnViewportChange,
            EditorCmd.ex ("set eventignore=" ++ w.eventignore)]
          if w.undoFilePresent then
            (w.removeResult, r.2.lines,
              before ++ r.2.calls.map EditorCmd.vim ++ deferred
                ++ [EditorCmd.ex ("silent! rundo " ++ tf)])
          else
            (r.1, r.2.lines, before ++ r.2.calls.map EditorCmd.vim ++ deferred)

/-! ## Jump stack -/

/-- An effect of a navigation command on the editor. -/
inductive NavEffect where
  | ex (cmd : String)
  | loadLocation (loc : Location)
deriving DecidableEq, Repr

/-- The result of `v.cursorPos()`: the current buffer, the cursor as a point and
the value of `pos.ToPosition()`. -/
structure CursorPos where
  b : Buffer
  pos : Point
  position : Position
deriving DecidableEq, Repr

/-- The answers gotoDef gets during one call. -/
structure DefQuery where
  -- The arguments of the command.
  args : List String
  -- Whether a mode is one of the config.GoToDefMode values.
  knownMode : String → Bool
  -- The result of `v.cursorPos()`.
  cursor : Except String CursorPos
  -- The reply of `server.Definition`.
  definition : Except String (List Location)
  -- The result of `v.loadLocation`.
  load : Option String

/-- The slice expression `s[:p]`, for `p` up to the length of `s`; `none` is
the run-time panic. (Go also allows `p` up to the capacity of `s`; the session
never has the cursor beyond the length.) -/
def sliceTo {α : Type} (s : List α) (p : Int) : Option (List α) :=
  if 0 ≤ p ∧ p ≤ s.length then some (s.take p.toNat) else none

/-- The index expression `s[p]`; `none` is the run-time panic. -/
def index {α : Type} (s : List α) (p : Int) : Option α :=
  if 0 ≤ p then s.get? p.toNat else none

/-- The check of the arguments at the start of gotoDef: a single argument must
be one of the modes. -/
def modeAccepted (q : DefQuery) : Bool :=
  match q.args with
  | [mode] => q.knownMode mode
  | _ => true

/-- The function vimstate.gotoDef: the error returned, the new state and the
effects on the editor; `none` is a run-time panic. -/
def gotoDef (q : DefQuery) (v : vimstate) : Option (Option String × vimstate × List NavEffect) :=
  if !modeAccepted q then some (some "unknown mode supplied", v, [])
  else
    match q.cursor with
    | .error err => some (some ("failed to determine cursor position: " ++ err), v, [])
    | .ok c =>
      match q.definition with
      | .error err => some (some ("failed to call gopls.Definition: " ++ err), v, [])
      | .ok [] => some (none, v, [NavEffect.ex "echorerr \"No definition exists under cursor\""])
      | .ok [loc] =>
        match sliceTo v.jumpStack v.jumpStackPos with
        | none => none
        | some kept =>
          some (q.load,
            { v with
              jumpStack := kept ++ [⟨c.b.URI, ⟨c.position, c.position⟩⟩]
              jumpStackPos := v.jumpStackPos + 1 },
            [NavEffect.loadLocation loc])
      | .ok _ => some (some "got multiple locations; don't know how to handle this", v, [])

/-- The type govim.CommandFlags (the field gotoPrevDef reads); `none` is a nil
pointer. -/
structure CommandFlags where
  Count : Option Int
deriving DecidableEq, Repr

/-- The function vimstate.gotoPrevDef; `load` is the result of
`v.loadLocation`; `none` is a run-time panic. -/
def gotoPrevDef (load : Option String) (flags : CommandFlags) (v : vimstate) :
    Option (Option String × vimstate × List NavEffect) :=
  if v.jumpStackPos = 0 then
    some (none, v, [NavEffect.ex "echom \"Already at top of stack\""])
  else
    match flags.Count with
    | none => none
    | some count =>
      let pos := v.jumpStackPos - count
      let pos := if pos < 0 then 0 else pos
      match index v.jumpStack pos with
      | none => none
      | some loc => some (load, { v with jumpStackPos := pos }, [NavEffect.loadLocation loc])

/-- A run of successive gotoDef calls; `none` when one of them panics. -/
def runGotoDef : List DefQuery → vimstate → Option (vimstate × List NavEffect)
  | [], v => some (v, [])
  | q :: qs, v =>
    match gotoDef q v with
    | none => none
    | some (_, v1, eff) =>
      match runGotoDef qs v1 with
      | none => none
      | some (v2, effs) => some (v2, eff ++ effs)

/-- A run of successive gotoPrevDef calls with count 1, one per given result of
loadLocation; `none` when one of them panics. -/
def runGotoPrevDef : List (Option String) → vimstate → Option (vimstate × List NavEffect)
  | [], v => some (v, [])
  | l :: ls, v =>
    match gotoPrevDef l ⟨some 1⟩ v with
    | none => none
    | some (_, v1, eff) =>
      match runGotoPrevDef ls v1 with
      | none => none
      | some (v2, effs) => some (v2, eff ++ effs)


/-! ## Document synchronisation -/

/-- A notification sent to the server: the document URI, the version and the
text (for DidChange, the list ContentChanges). -/
inductive Notification where
  | DidOpen (uri : String) (version : Int) (text : Text)
  | DidChange (uri : String) (version : Int) (contentChanges : List Text)
deriving DecidableEq, Repr

/-- The function vimstate.handleBufferEvent; `reply` is the error the server
call returns. The version travels as a float64, which holds every version below
2^53 exactly. -/
def handleBufferEvent (reply : Option String) (b : Buffer) (v : vimstate) :
    Option String × vimstate × List Notification :=
  let v1 := { v with buffers := mapSet v.buffers b.Num b }
  if b.Version = 0 then
    (reply, v1, [Notification.DidOpen b.URI b.Version b.Contents])
  else
    (reply, v1, [Notification.DidChange b.URI b.Version [b.Contents]])

/-- The function vimstate.bufReadPost, from the call of fetchCurrentBufferInfo
on (the buffer-local settings sent before it are not notifications); `fetched`
is the result of that call. -/
def bufReadPost (fetched : Except String Buffer) (reply : Option String) (v : vimstate) :
    Option String × vimstate × List Notification :=
  match fetched with
  | .error err => (some err, v, [])
  | .ok b =>
    match mapGet v.buffers b.Num with
    | some cb => handleBufferEvent reply { b with Version := cb.Version + 1 } v
    | none => handleBufferEvent reply { b with Version := 0 } v

/-- The function vimstate.bufTextChanged. -/
def bufTextChanged (fetched : Except String Buffer) (reply : Option String) (v : vimstate) :
    Option String × vimstate × List Notification :=
  match fetched with
  | .error err => (some err, v, [])
  | .ok b =>
    match mapGet v.buffers b.Num with
    | none => (some "have not seen buffer - this should be impossible", v, [])
    | some cb => handleBufferEvent reply { b with Version := cb.Version + 1 } v

/-- An observed buffer event: which autocommand fired, the buffer information
fetched from the editor, and the error the server call returns. -/
structure BufEvent where
  reread : Bool
  info : Buffer
  reply : Option String
deriving DecidableEq, Repr

/-- The handler of one observed event. -/
def handleEvent (ev : BufEvent) (v : vimstate) : Option String × vimstate × List Notification :=
  if ev.reread then bufReadPost (.ok ev.info) ev.reply v
  else bufTextChanged (.ok ev.info) ev.reply v

/-- The notifications emitted for the events of the buffer with handle `h`
while the events, of any buffer, are handled one after the other. -/
def runEventsFor (h : Int) : List BufEvent → vimstate → List Notification
  | [], _ => []
  | ev :: evs, v =>
    (if ev.info.Num = h then (handleEvent ev v).2.2 else [])
      ++ runEventsFor h evs (handleEvent ev v).2.1

/-! ## Quickfix list -/

/-- The struct quickfixEntry. -/
structure quickfixEntry where
  Filename : String
  Lnum : Nat
  Col : Nat
  Text : String
deriving DecidableEq, Repr

/-- An editor call that changes the quickfix list. -/
inductive QuickfixCall where
  | setqflist (list : Slice quickfixEntry) (action : String)
deriving DecidableEq, Repr

/-- The answers updateQuickfix gets from the editor and the file system. -/
structure QuickfixWorld where
  -- The reply of `getcwd`.
  cwd : String
  -- The method `uri.Filename()`.
  filename : String → Except String String
  -- The function ioutil.ReadFile.
  readFile : String → Except String Text
  -- The function filepath.Rel.
  rel : String → String → Except String String
  -- The function types.PointFromPosition.
  pfp : Buffer → Position → Except String Point

/-- The Go call `sort.Slice(fns, less)` with `less` the order of the strings
(Go compares strings byte by byte, which on UTF-8 text is the order of the code
points). The keys of a map are distinct, so the result does not depend on the
sorting algorithm. -/
def sortURIs (fns : List String) : List String :=
  fns.insertionSort (fun a b => a ≤ b)

/-- The loop `for _, b := range v.buffers { if b.URI() == uri { buf = b } }`:
the last buffer visited that has the URI, `none` (nil) if there is none. -/
def findBuffer (buffers : List (Int × Buffer)) (uri : String) : Option Buffer :=
  buffers.foldl (fun buf kv => if kv.2.URI = uri then some kv.2 else buf) none

/-- The buffer updateQuickfix resolves positions against: the open buffer with
the URI, or else a temporary buffer with the contents of the file. -/
def fileBuffer (w : QuickfixWorld) (v : vimstate) (uri fn : String) : Except String Buffer :=
  match findBuffer v.buffers uri with
  | some buf => .ok buf
  | none =>
    match w.readFile fn with
    | .error err => .error ("failed to read contents: " ++ err)
    | .ok byts => .ok { Num := -1, Name := fn, Contents := byts, Version := 0 }

/-- The loop `for _, d := range diags` of updateQuickfix. -/
def diagFixes (w : QuickfixWorld) (buf : Buffer) (fn : String) :
    List Diagnostic → Slice quickfixEntry → Except String (Slice quickfixEntry)
  | [], fixes => .ok fixes
  | d :: ds, fixes =>
    match w.pfp buf d.Range.Start with
    | .error err => .error ("failed to resolve position: " ++ err)
    | .ok p => diagFixes w buf fn ds (fixes.push ⟨fn, p.Line, p.Col, d.Message⟩)

/-- The loop `for _, uri := range fns` of updateQuickfix. -/
def uriFixes (w : QuickfixWorld) (v : vimstate) :
    List String → Slice quickfixEntry → Except String (Slice quickfixEntry)
  | [], fixes => .ok fixes
  | uri :: rest, fixes =>
    let diags := (mapGet v.diagnostics uri).getD []
    match w.filename uri with
    | .error err => .error ("failed to resolve filename from URI: " ++ err)
    | .ok fn =>
      match fileBuffer w v uri fn with
      | .error err => .error err
      | .ok buf =>
        match w.rel w.cwd fn with
        | .error err => .error ("failed to call filepath.Rel: " ++ err)
        | .ok relfn =>
          match diagFixes w buf relfn diags fixes with
          | .error err => .error err
          | .ok fixes1 => uriFixes w v rest fixes1

/-- The function vimstate.updateQuickfix: the error returned, the new state
(the deferred function clears the flag) and the calls that change the quickfix
list. -/
def updateQuickfix (w : QuickfixWorld) (v : vimstate) :
    Option String × vimstate × List QuickfixCall :=
  let v1 := { v with diagnosticsChanged := false }
  if !v.diagnosticsChanged then (none, v1, [])
  else
    let fns := sortURIs (v.diagnostics.map (fun kv => kv.1))
    match uriFixes w v fns (some []) with
    | .error err => (some err, v1, [])
    | .ok fixes => (none, v1, [QuickfixCall.setqflist fixes "r"])

/-! ## Completion -/

/-- The struct completionResult. -/
structure completionResult where
  Abbr : String
  Word : Text
  Info : String
deriving DecidableEq, Repr

/-- The value complete returns to the editor. -/
inductive CompleteValue where
  | nil
  | col (n : Nat)
  | matches (ms : Slice completionResult)
deriving DecidableEq, Repr

/-- The loop `for _, i := range v.lastCompleteResults.Items`. -/
def completeMatches : List CompletionItem → Slice completionResult → Slice completionResult
  | [], acc => acc
  | i :: rest, acc => completeMatches rest (acc.push ⟨i.Label, i.TextEdit.NewText, i.Detail⟩)

/-- The function vimstate.complete; `findstart` is the parsed first argument,
`cursor` and `completion` the results of `v.cursorPos()` and
`server.Completion`; `none` is a run-time panic (nil pointer). -/
def complete (findstart : Int) (cursor : Except String CursorPos)
    (completion : Except String (Option CompletionList)) (v : vimstate) :
    Option (CompleteValue × Option String × vimstate) :=
  if findstart = 1 then
    match cursor with
    | .error err => some (.nil, some ("failed to get current position: " ++ err), v)
    | .ok c =>
      match completion with
      | .error err => some (.nil, some ("called to gopls.Completion failed: " ++ err), v)
      | .ok res => some (.col c.pos.Col, none, { v with lastCompleteResults := res })
  else
    match v.lastCompleteResults with
    | none => none
    | some res => some (.matches (completeMatches res.Items none), none, v)


/-! ## Line-aligned edits -/

/-- The offset of the start of line `n` (0-based) in the contents of `ls`. -/
def lineOffset (ls : List Text) (n : Nat) : Nat := (bufContents (ls.take n)).length

/-- The edits the line-granular applier can express: both ends at the start
of a line, and either whole lines removed (nothing inserted) or text that is
empty or ends with a newline inserted at a line start. -/
abbrev LineEdit (e : TextEdit) : Prop :=
  e.Range.Start.Character = 0 ∧ e.Range.End.Character = 0 ∧
  ((e.Range.Start.Line < e.Range.End.Line ∧ e.NewText = []) ∨
   (e.Range.Start.Line = e.Range.End.Line ∧
     (e.NewText = [] ∨ e.NewText.getLast? = some '\n')))

/-- The span of a line-aligned edit in the contents of the lines `ls`. -/
def lineSpan (ls : List Text) (e : TextEdit) : DiffEdit :=
  ⟨lineOffset ls e.Range.Start.Line, lineOffset ls e.Range.End.Line, e.NewText⟩


/-! ## Example states -/

/-- A session with three entries on the jump stack and the cursor at 2. -/
def exampleNav : vimstate :=
  { buffers := [], diagnostics := [], diagnosticsChanged := false,
    jumpStack := [⟨"file:///x.go", ⟨⟨0, 0⟩, ⟨0, 0⟩⟩⟩, ⟨"file:///y.go", ⟨⟨1, 0⟩, ⟨1, 0⟩⟩⟩,
      ⟨"file:///z.go", ⟨⟨2, 0⟩, ⟨2, 0⟩⟩⟩],
    jumpStackPos := 2, lastCompleteResults := none }

/-- A session in its initial state. -/
def emptySession : vimstate :=
  { buffers := [], diagnostics := [], diagnosticsChanged := false,
    jumpStack := [], jumpStackPos := 0, lastCompleteResults := none }

/-- A gotoDef call from the given cursor that gets the single location `loc`. -/
def exampleCall (c : CursorPos) (loc : Location) : DefQuery × CursorPos × Location :=
  ({ args := [], knownMode := fun _ => false, cursor := .ok c, definition := .ok [loc],
     load := none }, c, loc)

/-- Three gotoDef calls, made from three different files. -/
def exampleCalls : List (DefQuery × CursorPos × Location) :=
  [exampleCall ⟨⟨1, "/a.go", [], 0⟩, ⟨3, 1, 0⟩, ⟨2, 0⟩⟩ ⟨"file:///b.go", ⟨⟨7, 0⟩, ⟨7, 1⟩⟩⟩,
   exampleCall ⟨⟨2, "/b.go", [], 0⟩, ⟨8, 3, 0⟩, ⟨7, 2⟩⟩ ⟨"file:///c.go", ⟨⟨4, 0⟩, ⟨4, 1⟩⟩⟩,
   exampleCall ⟨⟨3, "/c.go", [], 0⟩, ⟨5, 2, 0⟩, ⟨4, 1⟩⟩ ⟨"file:///d.go", ⟨⟨0, 0⟩, ⟨0, 1⟩⟩⟩]

/-- The events of two buffers: buffer 4 is read, changed, read again and
changed; buffer 5 is read and changed in between. -/
def exampleEvents : List BufEvent :=
  [⟨true, ⟨4, "/a.go", "a\n".toList, 0⟩, none⟩,
   ⟨true, ⟨5, "/b.go", "b\n".toList, 0⟩, none⟩,
   ⟨false, ⟨4, "/a.go", "ab\n".toList, 0⟩, none⟩,
   ⟨true, ⟨4, "/a.go", "a\n".toList, 0⟩, none⟩,
   ⟨false, ⟨5, "/b.go", "bc\n".toList, 0⟩, none⟩,
   ⟨false, ⟨4, "/a.go", "abc\n".toList, 0⟩, some "server error"⟩]

/-- The notification the design prescribes for the event numbered `k` of a
buffer, counting from 0: an open with version 0 for the first event, a change
with version `k` and one content change, the full text, for the others. -/
def expectedNotification (k : Nat) (ev : BufEvent) : Notification :=
  if k = 0 then Notification.DidOpen ev.info.URI 0 ev.info.Contents
  else Notification.DidChange ev.info.URI k [ev.info.Contents]

/-- The diagnostics of the design's example: one for `fileB.go`, listed first,
and two for `fileA.go`. -/
def exampleDiagnostics : vimstate :=
  { buffers := [(1, ⟨1, "fileB.go", "x\ny\nz\n".toList, 3⟩)],
    diagnostics := [("file://fileB.go", [⟨⟨⟨0, 0⟩, ⟨0, 1⟩⟩, "d1"⟩]),
      ("file://fileA.go", [⟨⟨⟨2, 0⟩, ⟨2, 1⟩⟩, "d2"⟩, ⟨⟨⟨1, 1⟩, ⟨1, 1⟩⟩, "d3"⟩])],
    diagnosticsChanged := true, jumpStack := [], jumpStackPos := 0,
    lastCompleteResults := none }

/-- A world in which `fileA.go` is read from disk and every step succeeds. -/
def exampleDiagWorld : QuickfixWorld :=
  { cwd := "/", filename := fun u => .ok u, readFile := fun _ => .ok "x\ny\nz\n".toList,
    rel := fun _ fn => .ok fn, pfp := PointFromPosition }

/-- Two completion candidates for `foo.Ba`. -/
def exampleCandidates : CompletionList :=
  { Items := [⟨"Bar", "func()", ⟨⟨⟨0, 4⟩, ⟨0, 6⟩⟩, "Bar".toList⟩⟩,
      ⟨"Baz", "int", ⟨⟨⟨0, 4⟩, ⟨0, 6⟩⟩, "Baz".toList⟩⟩] }

/-- A session that has cached the two candidates. -/
def exampleCompletion : vimstate :=
  { buffers := [], diagnostics := [], diagnosticsChanged := false,
    jumpStack := [], jumpStackPos := 0, lastCompleteResults := some exampleCandidates }


/-! ## Sequences of navigation commands -/

/-- A navigation command with the answers it gets: a gotoDef call, or a
gotoPrevDef call with the result of loadLocation and the count of its flags. -/
inductive NavCall where
  | gotoDef (q : DefQuery)
  | gotoPrevDef (load : Option String) (count : Int)

/-- Whether the count of a gotoPrevDef call is at least 1. -/
def NavCall.countOk : NavCall → Bool
  | .gotoDef _ => true
  | .gotoPrevDef _ count => decide (1 ≤ count)

/-- The state after a sequence of navigation commands; `none` when one of them
panics (slice or index out of range). -/
def runNav : List NavCall → vimstate → Option vimstate
  | [], v => some v
  | .gotoDef q :: rest, v =>
    match gotoDef q v with
    | none => none
    | some (_, v1, _) => runNav rest v1
  | .gotoPrevDef load count :: rest, v =>
    match gotoPrevDef load ⟨some count⟩ v with
    | none => none
    | some (_, v1, _) => runNav rest v1

/-- A sequence of navigation commands: two definitions, back by 5, a
definition, back by 1 twice. -/
def exampleNavCalls : List NavCall :=
  [.gotoDef (exampleCall ⟨⟨1, "/a.go", [], 0⟩, ⟨3, 1, 0⟩, ⟨2, 0⟩⟩
      ⟨"file:///b.go", ⟨⟨7, 0⟩, ⟨7, 1⟩⟩⟩).1,
   .gotoDef (exampleCall ⟨⟨2, "/b.go", [], 0⟩, ⟨8, 3, 0⟩, ⟨7, 2⟩⟩
      ⟨"file:///c.go", ⟨⟨4, 0⟩, ⟨4, 1⟩⟩⟩).1,
   .gotoPrevDef none 5,
   .gotoDef (exampleCall ⟨⟨3, "/c.go", [], 0⟩, ⟨5, 2, 0⟩, ⟨4, 1⟩⟩
      ⟨"file:///d.go", ⟨⟨0, 0⟩, ⟨0, 1⟩⟩⟩).1,
   .gotoPrevDef none 1,
   .gotoPrevDef (some "failed to derive point from position") 1]

/-- Two locations a server may give for one identifier. -/
def exampleTwoLocations : List Location :=
  [⟨"file:///b.go", ⟨⟨7, 0⟩, ⟨7, 1⟩⟩⟩, ⟨"file:///c.go", ⟨⟨4, 0⟩, ⟨4, 1⟩⟩⟩]

/-- A gotoDef call to which the server answers with the two locations. -/
def exampleAmbiguous : DefQuery :=
  { args := [], knownMode := fun _ => false,
    cursor := .ok ⟨⟨1, "/a.go", [], 0⟩, ⟨3, 1, 0⟩, ⟨2, 0⟩⟩,
    definition := .ok exampleTwoLocations, load := none }

/-! ## Line mutations, edit by edit -/

/-- The line mutation the loop of formatCurrentBuffer requests for an edit, if
any: `deletebufline` for an edit that spans lines, `append` for an insertion of
text, nothing for an edit that is empty or does not resolve. -/
def mutationOfEdit (pfp : Buffer → Position → Except String Point) (b : Buffer)
    (e : TextEdit) : Option VimCall :=
  match pfp b e.Range.Start, pfp b e.Range.End with
  | .ok start, .ok stop =>
    if start.Line ≠ stop.Line then
      some (VimCall.deletebufline b.Num start.Line ((stop.Line : Int) - 1))
    else if e.NewText = [] then none
    else some (VimCall.append ((start.Line : Int) - 1) (splitNewline (stripNewline e.NewText)))
  | _, _ => none

/-- The editor line at which the start of an edit resolves (0 if it does not
resolve). -/
def startLineOf (pfp : Buffer → Position → Except String Point) (b : Buffer)
    (e : TextEdit) : Int :=
  match pfp b e.Range.Start with
  | .ok start => start.Line
  | .error _ => 0

/-- The first editor line a line mutation touches: the first line removed, or
the line below which lines are inserted plus one. -/
def VimCall.firstLine : VimCall → Int
  | .deletebufline _ first _ => first
  | .append lnum _ => lnum + 1

/-- A buffer of three lines, as the session records it. -/
def exampleBuffer : Buffer := ⟨1, "a.go", "a\nb\nc\n".toList, 0⟩

/-- An edit list in ascending order for the buffer of three lines: the first
line is removed, two lines are inserted above the third and one below it. -/
def exampleEdits : List TextEdit :=
  [⟨⟨⟨0, 0⟩, ⟨1, 0⟩⟩, []⟩, ⟨⟨⟨2, 0⟩, ⟨2, 0⟩⟩, "x\ny\n".toList⟩,
    ⟨⟨⟨3, 0⟩, ⟨3, 0⟩⟩, "z\n".toList⟩]

/-! ## rename.Run: edits spanning several files -/

/-- The type protocol.TextDocumentEdit: the URI of `TextDocument` and the
edits. -/
structure TextDocumentEdit where
  URI : String
  Edits : List TextEdit
deriving DecidableEq, Repr

/-- The type protocol.DocumentChanges (one member of the list); `none` is a nil
`TextDocumentEdit`, as for a file operation. -/
structure DocumentChange where
  TextDocumentEdit : Option TextDocumentEdit
deriving DecidableEq, Repr

/-- The flags of the struct rename. -/
structure RenameFlags where
  Diff : Bool
  Write : Bool
  Preserve : Bool
deriving DecidableEq, Repr

/-- What rename.Run does to the outside world. -/
inductive Output where
  | stdout (text : Text)
  | stderr (text : Text)
  | osRename (oldpath newpath : String)
  | writeFile (name : String) (data : Text)
deriving DecidableEq, Repr

/-- The answers rename.Run gets from its connection and the operating
system. -/
structure RenameWorld where
  -- The error of `r.app.connect`.
  connect : Option String
  -- The field `err` of `conn.AddFile(ctx, from.URI())`.
  fileErr : Option String
  -- The error of `file.mapper.Location(from)`.
  location : Option String
  -- The reply of `conn.Rename`: the list `edit.DocumentChanges`.
  rename : Except String (List DocumentChange)
  -- The helper `fileURI`.
  fileURI : String → String
  -- The function span.URIFromURI.
  uriFromURI : String → String
  -- The file name `cmdFile.uri.Filename()` of `conn.AddFile(ctx, uri)`.
  filename : String → String
  -- The content `cmdFile.mapper.Content` of `conn.AddFile(ctx, uri)`.
  content : String → Text
  -- The function filepath.Base.
  base : String → String
  -- The function diff.ToUnified.
  toUnified : String → String → Text → List DiffEdit → Text
  -- The error of `os.Rename`.
  osRename : String → String → Option String

/-- The loop `for _, c := range edit.DocumentChanges` of rename.Run: the map
`edits` and the slice `orderedURIs`. -/
def collectEdits (w : RenameWorld) :
    List DocumentChange → List (String × List TextEdit) × List String →
      List (String × List TextEdit) × List String
  | [], acc => acc
  | c :: rest, (edits, orderedURIs) =>
    match c.TextDocumentEdit with
    | none => collectEdits w rest (edits, orderedURIs)
    | some t =>
      let uri := w.fileURI t.URI
      collectEdits w rest
        (mapSet edits uri ((mapGet edits uri).getD [] ++ t.Edits), orderedURIs ++ [uri])

/-- The edits of one file as spans of its content:
`source.FromProtocolEdits(cmdFile.mapper, edits[uri])`. -/
def renameEditsOf (w : RenameWorld) (edits : List (String × List TextEdit)) (uri : String) :
    Except String (List DiffEdit) :=
  FromProtocolEdits ⟨-1, w.filename uri, w.content uri, 0⟩ ((mapGet edits uri).getD [])

/-- The new content of one file:
`diff.ApplyEdits(string(cmdFile.mapper.Content), renameEdits)`. -/
def newContentOf (w : RenameWorld) (edits : List (String × List TextEdit)) (uri : String) :
    Except String Text :=
  match renameEditsOf w edits uri with
  | .ok renameEdits => .ok (ApplyEdits (w.content uri) renameEdits)
  | .error err => .error err

/-- The loop `for _, u := range orderedURIs` of rename.Run; `n` is
`len(orderedURIs)`. -/
def renameLoop (w : RenameWorld) (r : RenameFlags) (edits : List (String × List TextEdit))
    (n : Nat) : List String → Int → List Output → Option String × List Output
  | [], _, out => (none, out)
  | u :: rest, changeCount, out =>
    let uri := w.uriFromURI u
    let filename := w.filename uri
    match renameEditsOf w edits uri with
    | .error err => (some err, out)
    | .ok renameEdits =>
      let newContent := ApplyEdits (w.content uri) renameEdits
      if r.Write then
        let out1 := out ++ [Output.stderr (filename.toList ++ ['\n'])]
        if r.Preserve then
          match w.osRename filename (filename ++ ".orig") with
          | some err => (some err, out1)
          | none =>
            renameLoop w r edits n rest changeCount
              (out1 ++ [Output.osRename filename (filename ++ ".orig"),
                Output.writeFile filename newContent])
        else
          renameLoop w r edits n rest changeCount (out1 ++ [Output.writeFile filename newContent])
      else if r.Diff then
        renameLoop w r edits n rest changeCount
          (out ++ [Output.stdout
            (w.toUnified (filename ++ ".orig") filename (w.content uri) renameEdits)])
      else
        let out1 :=
          if 1 < n then out ++ [Output.stdout ((w.base filename).toList ++ ":\n".toList)]
          else out
        let out2 := out1 ++ [Output.stdout newContent]
        let out3 := if 1 < changeCount then out2 ++ [Output.stdout ['\n']] else out2
        renameLoop w r edits n rest (changeCount - 1) out3

/-- The slice `orderedURIs` of rename.Run after `sort.Strings`. -/
def orderedURIs (w : RenameWorld) (changes : List DocumentChange) : List String :=
  sortURIs (collectEdits w changes ([], [])).2

/-- The method Run of rename: the error returned and what was printed and
written. -/
def renameRun (w : RenameWorld) (r : RenameFlags) (args : List String) :
    Option String × List Output :=
  if args.length ≠ 2 then (some "definition expects 2 arguments (position, new name)", [])
  else
    match w.connect with
    | some err => (some err, [])
    | none =>
      match w.fileErr with
      | some err => (some err, [])
      | none =>
        match w.location with
        | some err => (some err, [])
        | none =>
          match w.rename with
          | .error err => (some err, [])
          | .ok changes =>
            let c := collectEdits w changes ([], [])
            let ordered := sortURIs c.2
            renameLoop w r c.1 ordered.length ordered ordered.length []

/-- The text printed on standard output. -/
def stdoutOf : List Output → Text
  | [] => []
  | .stdout text :: rest => text ++ stdoutOf rest
  | _ :: rest => stdoutOf rest

/-- The preview of several files, each given by its base name and its new
content: for every file, a header line with the name (only if `header`), the
content, and a newline unless the file is the last. -/
def previewLayout (header : Bool) : List (String × Text) → Text
  | [] => []
  | [f] => (if header then f.1.toList ++ ":\n".toList else []) ++ f.2
  | f :: g :: rest =>
    (if header then f.1.toList ++ ":\n".toList else []) ++ f.2 ++ ['\n']
      ++ previewLayout header (g :: rest)

/-- A rename reply that names the file `a.go` in two document changes, and
`b.go` in one listed between them; every file has the content `a`, newline,
`b`, newline. -/
def exampleRename (changes : List DocumentChange) : RenameWorld :=
  { connect := none, fileErr := none, location := none, rename := .ok changes,
    fileURI := fun u => u, uriFromURI := fun u => u,
    filename := fun u => if u = "file:///a.go" then "/a.go" else "/b.go",
    content := fun _ => "a\nb\n".toList,
    base := fun f => if f = "/a.go" then "a.go" else "b.go",
    toUnified := fun _ _ _ _ => [],
    osRename := fun _ _ => none }

/-- Two document changes for `a.go`: one inserts `x` above line 1, the other
inserts `y` above line 2. -/
def exampleSameFile : List DocumentChange :=
  [⟨some ⟨"file:///a.go", [⟨⟨⟨0, 0⟩, ⟨0, 0⟩⟩, "x\n".toList⟩]⟩⟩,
   ⟨some ⟨"file:///a.go", [⟨⟨⟨1, 0⟩, ⟨1, 0⟩⟩, "y\n".toList⟩]⟩⟩]

/-- Document changes for two files, `b.go` listed before `a.go`. -/
def exampleTwoFiles : List DocumentChange :=
  [⟨some ⟨"file:///b.go", [⟨⟨⟨0, 0⟩, ⟨0, 0⟩⟩, "x\n".toList⟩]⟩⟩,
   ⟨none⟩,
   ⟨some ⟨"file:///a.go", [⟨⟨⟨1, 0⟩, ⟨1, 0⟩⟩, "y\n".toList⟩]⟩⟩]

/-! ## mod.formatExplanation -/

/-- The fields of source.Options that formatExplanation reads. -/
structure Options where
  PreferredContentFormat : String
  LinkTarget : Text
deriving DecidableEq, Repr

/-- The type modfile.Require, as formatExplanation reads it: `Mod.Path` and the
value of `Mod.String()`. -/
structure Require where
  Path : Text
  ModString : Text
deriving DecidableEq, Repr

/-- The constant and the library functions formatExplanation uses. -/
structure HoverWorld where
  -- The constant protocol.Markdown.
  Markdown : String
  -- The function strings.ToLower.
  toLower : Text → Text
  -- The function source.BuildLink.
  buildLink : Text → Text → Text → Text

/-- The slice expression `s[lo:hi]` on a slice whose capacity is its length;
`none` is the run-time panic. -/
def sliceFromTo {α : Type} (s : List α) (lo hi : Int) : Option (List α) :=
  if 0 ≤ lo ∧ lo ≤ hi ∧ hi ≤ s.length then some ((s.take hi.toNat).drop lo.toNat) else none

/-- The Go call `strings.Replace(s, old, new, 1)`. -/
def replaceFirst (old new : Text) : Text → Text
  | [] => if old = [] then new else []
  | c :: cs =>
    if old.isPrefixOf (c :: cs) then new ++ (c :: cs).drop old.length
    else c :: replaceFirst old new cs

/-- The text called `reference` in formatExplanation: the import path, or a
link to it; `none` is the run-time panic of `req.Mod.Path` on a nil `req`. -/
def referenceOf (w : HoverWorld) (imp : Text) (req : Option Require) (options : Options)
    (isPrivate : Bool) : Option Text :=
  if !isPrivate && decide (options.PreferredContentFormat = w.Markdown) then
    if w.toLower options.LinkTarget = "pkg.go.dev".toList then
      match req with
      | none => none
      | some rq =>
        some ("[".toList ++ imp ++ "](".toList
          ++ w.buildLink options.LinkTarget (replaceFirst rq.Path rq.ModString imp) []
          ++ ")".toList)
    else
      some ("[".toList ++ imp ++ "](".toList ++ w.buildLink options.LinkTarget imp []
        ++ ")".toList)
  else some imp

/-- The loop `for _, imp := range splt[1 : length-1]` of formatExplanation:
what it writes, given the value of `dash` before it. -/
def dashLines : List Text → Text → Text
  | [], _ => []
  | imp :: rest, dash =>
    "\n".toList ++ (dash ++ "-".toList) ++ " ".toList ++ imp
      ++ dashLines rest (dash ++ "-".toList)

/-- The function formatExplanation of package mod; `none` is a run-time panic
(index or slice out of range, nil pointer). -/
def formatExplanation (w : HoverWorld) (text : Text) (req : Option Require)
    (options : Option Options) (isPrivate : Bool) : Option Text :=
  let splt := splitNewline (stripNewline text)
  let length : Int := splt.length
  match index splt 0 with
  | none => none
  | some heading =>
    match options with
    | none => none
    | some opts =>
      let b := "##".toList ++ heading
        ++ (if opts.PreferredContentFormat = w.Markdown then "\n\n".toList else "\n".toList)
      if length = 2 then
        match index splt 1 with
        | none => none
        | some second => some (b ++ second)
      else
        match index splt (length - 1) with
        | none => none
        | some imp =>
          match referenceOf w imp req opts isPrivate with
          | none => none
          | some reference =>
            let b := b ++ "This module is necessary because ".toList ++ reference
              ++ " is imported in".toList
            if length = 3 then
              match index splt 1 with
              | none => none
              | some second => some (b ++ " `".toList ++ second ++ "`.".toList)
            else
              match sliceFromTo splt 1 (length - 1) with
              | none => none
              | some middle =>
                some (b ++ ":\n```text".toList ++ dashLines middle [] ++ "\n```".toList)

/-! # Theorems -/

/-! ## Lines and contents -/

theorem bufContents_nil : bufContents [] = [] := rfl

theorem bufContents_cons (l : Text) (ls : List Text) :
    bufContents (l :: ls) = l ++ '\n' :: bufContents ls := by
  simp [bufContents]

theorem bufContents_append (xs ys : List Text) :
    bufContents (xs ++ ys) = bufContents xs ++ bufContents ys := by
  simp [bufContents]

theorem splitNewline_ne_nil (t : Text) : splitNewline t ≠ [] := by
  cases t with
  | nil => simp [splitNewline]
  | cons c cs =>
    unfold splitNewline
    split <;> simp

theorem headD_cons_tail (xs : List Text) (h : xs ≠ []) : xs.headD [] :: xs.tail = xs := by
  cases xs with
  | nil => exact absurd rfl h
  | cons x xs => rfl

/-- Joining the pieces of a split gives the text back, with one more newline. -/
theorem bufContents_splitNewline (t : Text) : bufContents (splitNewline t) = t ++ ['\n'] := by
  induction t with
  | nil => rfl
  | cons c cs ih =>
    unfold splitNewline
    split
    · next h => rw [bufContents_cons, ih, h]; rfl
    · rw [bufContents_cons, List.cons_append, List.cons_append]
      congr 1
      rw [← bufContents_cons, headD_cons_tail _ (splitNewline_ne_nil cs), ih]

theorem splitNewline_line (l : Text) (rest : Text) (h : '\n' ∉ l) :
    splitNewline (l ++ '\n' :: rest) = l :: splitNewline rest := by
  induction l with
  | nil => simp [splitNewline]
  | cons c cs ih =>
    have hc : c ≠ '\n' := fun e => h (by simp [e])
    have hcs : '\n' ∉ cs := fun e => h (by simp [e])
    rw [List.cons_append, splitNewline, if_neg hc, ih hcs]
    rfl

/-- The lines of the contents of a buffer are its lines, followed by the empty
piece after the last newline. -/
theorem splitNewline_bufContents (ls : List Text) (h : ∀ l ∈ ls, '\n' ∉ l) :
    splitNewline (bufContents ls) = ls ++ [[]] := by
  induction ls with
  | nil => rfl
  | cons l ls ih =>
    rw [bufContents_cons, splitNewline_line l _ (h l (by simp)),
      ih (fun l' hl' => h l' (by simp [hl'])), List.cons_append]

theorem stripNewline_of_getLast (t : Text) (h : t.getLast? = some '\n') :
    stripNewline t ++ ['\n'] = t := by
  unfold stripNewline
  rw [if_pos h]
  have := List.dropLast_append_getLast? '\n' (by simpa using h)
  simpa using this

theorem lineStart_eq (ls : List Text) (n : Nat) (h : n ≤ ls.length) :
    lineStart (ls ++ [[]]) n = (bufContents (ls.take n)).length := by
  induction ls generalizing n with
  | nil =>
    have : n = 0 := by simpa using h
    subst this; rfl
  | cons l ls ih =>
    cases n with
    | zero => rfl
    | succ n =>
      have h1 : n ≤ ls.length := by simpa using h
      have := ih n h1
      simp only [lineStart] at this ⊢
      simp only [List.cons_append, List.take_succ_cons, List.map_cons, List.sum_cons,
        bufContents_cons, List.length_append, List.length_cons]
      rw [this]; omega

theorem take_bufContents (ls : List Text) (n : Nat) :
    (bufContents ls).take (bufContents (ls.take n)).length = bufContents (ls.take n) := by
  conv_lhs => rw [← List.take_append_drop n ls, bufContents_append]
  simp

theorem drop_bufContents (ls : List Text) (n : Nat) :
    (bufContents ls).drop (bufContents (ls.take n)).length = bufContents (ls.drop n) := by
  conv_lhs => rw [← List.take_append_drop n ls, bufContents_append]
  simp


theorem lineOffset_mono (ls : List Text) {m n : Nat} (h : m ≤ n) :
    lineOffset ls m ≤ lineOffset ls n := by
  unfold lineOffset
  have : ls.take n = ls.take m ++ (ls.take n).drop m := by
    have h1 := (List.take_append_drop m (ls.take n)).symm
    rwa [List.take_take, Nat.min_eq_left h] at h1
  rw [this, bufContents_append, List.length_append]
  omega

/-- The translation of a position at the start of a line of the buffer, or just
below its last line. -/
theorem PointFromPosition_lineStart (b : Buffer) (ls : List Text) (n : Nat)
    (hb : b.Contents = bufContents ls) (hnl : ∀ l ∈ ls, '\n' ∉ l) (hn : n ≤ ls.length) :
    PointFromPosition b ⟨n, 0⟩ = .ok ⟨n + 1, 1, lineOffset ls n⟩ := by
  unfold PointFromPosition
  simp only [hb, splitNewline_bufContents ls hnl]
  have hlt : n < (ls ++ [[]]).length := by simp; omega
  obtain ⟨l, hl⟩ : ∃ l, (ls ++ [[]]).get? n = some l := ⟨_, List.get?_eq_get hlt⟩
  rw [hl]
  simp [colOfUTF16, lineStart_eq ls n hn, lineOffset]

theorem deletebufline_lines (xs : List Text) (a c : Nat) (hac : a < c) (hc : c ≤ xs.length) :
    deletebufline xs ((a + 1 : Nat) : Int) (((c + 1 : Nat) : Int) - 1)
      = (xs.take a ++ xs.drop c, 0) := by
  unfold deletebufline
  have h1 : ¬ ((((a + 1 : Nat) : Int) < 1) ∨ ((xs.length : Int) < ((a + 1 : Nat) : Int)) ∨
      ((((c + 1 : Nat) : Int) - 1) < ((a + 1 : Nat) : Int))) := by omega
  rw [if_neg h1]
  have h2 : (((a + 1 : Nat) : Int) - 1).toNat = a := by omega
  have h3 : (((c + 1 : Nat) : Int) - 1).toNat = c := by omega
  rw [h2, h3]

theorem append_lines (xs : List Text) (a : Nat) (text : List Text) (ha : a ≤ xs.length) :
    append xs (((a + 1 : Nat) : Int) - 1) text = (xs.take a ++ text ++ xs.drop a, 0) := by
  unfold append
  have h1 : ¬ (((((a + 1 : Nat) : Int) - 1) < 0) ∨ ((xs.length : Int) < (((a + 1 : Nat) : Int) - 1))) := by
    omega
  rw [if_neg h1]
  have h2 : (((a + 1 : Nat) : Int) - 1).toNat = a := by omega
  rw [h2]

/-- Replacing lines `a` to `c - 1` of a buffer by the lines `mid` is, on the
contents, the splice of the contents of `mid` between the offsets of the two
line starts. -/
theorem bufContents_splice (xs mid : List Text) (a c : Nat) :
    bufContents (xs.take a ++ mid ++ xs.drop c)
      = spliceEdit (bufContents xs) ⟨lineOffset xs a, lineOffset xs c, bufContents mid⟩ := by
  simp only [spliceEdit, lineOffset, bufContents_append, take_bufContents, drop_bufContents]

theorem lineOffset_congr (xs ys : List Text) (k n : Nat) (hn : n ≤ k)
    (h : xs.take k = ys.take k) : lineOffset xs n = lineOffset ys n := by
  unfold lineOffset
  have : xs.take n = ys.take n := by
    have h1 : (xs.take k).take n = (ys.take k).take n := by rw [h]
    simpa [List.take_take, Nat.min_eq_left hn] using h1
  rw [this]


theorem length_ge_of_take_eq (xs ys : List Text) (k : Nat) (hk : k ≤ ys.length)
    (h : xs.take k = ys.take k) : k ≤ xs.length := by
  have := congrArg List.length h
  simp only [List.length_take] at this
  omega

theorem take_splice (xs mid : List Text) (a c : Nat) (ha : a ≤ xs.length) :
    (xs.take a ++ mid ++ xs.drop c).take a = xs.take a := by
  rw [List.append_assoc, List.take_append_of_le_length (by simp [ha])]
  simp [List.take_take]

theorem editLoop_contents (b : Buffer) (ls : List Text)
    (hb : b.Contents = bufContents ls) (hnl : ∀ l ∈ ls, '\n' ∉ l) :
    ∀ (r : List TextEdit) (s : LoopState) (k : Nat),
      (∀ e ∈ r, LineEdit e ∧ e.Range.End.Line ≤ k) →
      r.Pairwise (fun x y => y.Range.End.Line ≤ x.Range.Start.Line) →
      k ≤ ls.length → s.lines.take k = ls.take k →
      (editLoop PointFromPosition b r s).1 = none ∧
      bufContents (editLoop PointFromPosition b r s).2.lines
        = r.foldl (fun acc e => spliceEdit acc (lineSpan ls e)) (bufContents s.lines) := by
  intro r
  induction r with
  | nil => intro s k _ _ _ _; exact ⟨rfl, rfl⟩
  | cons e rest ih =>
    intro s k hall hpw hk htake
    obtain ⟨⟨hsc, hec, hshape⟩, hek⟩ := hall e (by simp)
    have hrest : ∀ e' ∈ rest, LineEdit e' ∧ e'.Range.End.Line ≤ e.Range.Start.Line :=
      fun e' he' => ⟨(hall e' (by simp [he'])).1, (List.pairwise_cons.1 hpw).1 e' he'⟩
    have hpw' := (List.pairwise_cons.1 hpw).2
    have hac : e.Range.Start.Line ≤ e.Range.End.Line := by
      rcases hshape with h | h <;> omega
    have hks : k ≤ s.lines.length := length_ge_of_take_eq _ _ _ hk htake
    have hps : PointFromPosition b e.Range.Start
        = .ok ⟨e.Range.Start.Line + 1, 1, lineOffset ls e.Range.Start.Line⟩ := by
      have := PointFromPosition_lineStart b ls e.Range.Start.Line hb hnl (by omega)
      rw [← hsc] at this
      exact this
    have hpe : PointFromPosition b e.Range.End
        = .ok ⟨e.Range.End.Line + 1, 1, lineOffset ls e.Range.End.Line⟩ := by
      have := PointFromPosition_lineStart b ls e.Range.End.Line hb hnl (by omega)
      rw [← hec] at this
      exact this
    have hoa : lineOffset ls e.Range.Start.Line = lineOffset s.lines e.Range.Start.Line :=
      (lineOffset_congr _ _ k _ (by omega) htake).symm
    have hoc : lineOffset ls e.Range.End.Line = lineOffset s.lines e.Range.End.Line :=
      (lineOffset_congr _ _ k _ hek htake).symm
    have hta : s.lines.take e.Range.Start.Line = ls.take e.Range.Start.Line := by
      have h1 : (s.lines.take k).take e.Range.Start.Line = (ls.take k).take e.Range.Start.Line := by
        rw [htake]
      simpa [List.take_take, Nat.min_eq_left (le_trans hac hek)] using h1
    have key : ∀ mid : List Text, bufContents mid = e.NewText →
        ∀ calls, 
        (editLoop PointFromPosition b rest
          ⟨s.lines.take e.Range.Start.Line ++ mid ++ s.lines.drop e.Range.End.Line, calls⟩).1 = none ∧
        bufContents (editLoop PointFromPosition b rest
          ⟨s.lines.take e.Range.Start.Line ++ mid ++ s.lines.drop e.Range.End.Line, calls⟩).2.lines
          = (e :: rest).foldl (fun acc e => spliceEdit acc (lineSpan ls e)) (bufContents s.lines) := by
      intro mid hmid calls
      have := ih ⟨s.lines.take e.Range.Start.Line ++ mid ++ s.lines.drop e.Range.End.Line, calls⟩
        e.Range.Start.Line hrest hpw' (by omega)
        (by rw [take_splice _ _ _ _ (by omega)]; exact hta)
      refine ⟨this.1, ?_⟩
      rw [this.2, List.foldl_cons, bufContents_splice, hmid]
      simp only [lineSpan, hoa, hoc]
    simp only [editLoop, hps, hpe]
    rcases hshape with ⟨hlt, htxt⟩ | ⟨heq, htxt⟩
    · have hne : e.Range.Start.Line + 1 ≠ e.Range.End.Line + 1 := by omega
      have hd := deletebufline_lines s.lines _ _ hlt (le_trans hek hks)
      simp only [ne_eq, not_true_eq_false, or_self, if_false, hne, not_false_eq_true, if_true,
        htxt, hd]
      have := key [] (by rw [htxt]; rfl)
      simpa using this _
    · rcases htxt with htxt | htxt
      · have := key [] (by rw [htxt]; rfl) s.calls
        simp only [heq, List.append_nil, List.take_append_drop] at this
        simpa [heq, htxt] using this
      · have hne : e.NewText ≠ [] := by
          intro h; rw [h] at htxt; simp at htxt
        have hap := append_lines s.lines e.Range.End.Line
          (splitNewline (stripNewline e.NewText)) (le_trans hek hks)
        have := key (splitNewline (stripNewline e.NewText))
          (by rw [bufContents_splitNewline, stripNewline_of_getLast _ htxt])
        simp only [heq] at this
        simp only [heq, ne_eq, not_true_eq_false, or_self, if_false, hne, hap]
        exact this _


theorem FromProtocolEdits_lineSpan (b : Buffer) (ls : List Text)
    (hb : b.Contents = bufContents ls) (hnl : ∀ l ∈ ls, '\n' ∉ l) :
    ∀ edits : List TextEdit, (∀ e ∈ edits, LineEdit e ∧ e.Range.End.Line ≤ ls.length) →
      FromProtocolEdits b edits = .ok (edits.map (lineSpan ls)) := by
  intro edits
  induction edits with
  | nil => intro _; rfl
  | cons e rest ih =>
    intro hall
    obtain ⟨⟨hsc, hec, hshape⟩, hek⟩ := hall e (by simp)
    have hac : e.Range.Start.Line ≤ e.Range.End.Line := by
      rcases hshape with h | h <;> omega
    have hps : PointFromPosition b e.Range.Start
        = .ok ⟨e.Range.Start.Line + 1, 1, lineOffset ls e.Range.Start.Line⟩ := by
      have := PointFromPosition_lineStart b ls e.Range.Start.Line hb hnl (by omega)
      rw [← hsc] at this
      exact this
    have hpe : PointFromPosition b e.Range.End
        = .ok ⟨e.Range.End.Line + 1, 1, lineOffset ls e.Range.End.Line⟩ := by
      have := PointFromPosition_lineStart b ls e.Range.End.Line hb hnl (by omega)
      rw [← hec] at this
      exact this
    simp only [FromProtocolEdits, hps, hpe, ih (fun e' he' => hall e' (by simp [he'])),
      List.map_cons, lineSpan]

theorem ApplyEdits_lineSpan (ls : List Text) (c : Text) (edits : List TextEdit)
    (hshape : ∀ e ∈ edits, LineEdit e ∧ e.Range.End.Line ≤ ls.length)
    (hord : edits.Pairwise (fun x y => x.Range.End.Line ≤ y.Range.Start.Line)) :
    ApplyEdits c (edits.map (lineSpan ls))
      = edits.reverse.foldl (fun acc e => spliceEdit acc (lineSpan ls e)) c := by
  have hsorted : List.Sorted (fun x y : DiffEdit => x.Start ≤ y.Start)
      (edits.map (lineSpan ls)) := by
    unfold List.Sorted
    rw [List.pairwise_map]
    refine List.Pairwise.imp_of_mem ?_ hord
    intro x y hx _ hxy
    have hx' := (hshape x hx).1.2.2
    have hxs : x.Range.Start.Line ≤ x.Range.End.Line := by
      rcases hx' with h | h <;> omega
    exact lineOffset_mono ls (le_trans hxs hxy)
  unfold ApplyEdits
  rw [List.Sorted.insertionSort_eq hsorted, List.foldl_reverse, List.foldr_map]


/-! ## The loop, edit by edit -/

theorem editLoop_append (pfp : Buffer → Position → Except String Point) (b : Buffer)
    (r1 r2 : List TextEdit) :
    ∀ s : LoopState, editLoop pfp b (r1 ++ r2) s
      = if (editLoop pfp b r1 s).1 = none then editLoop pfp b r2 (editLoop pfp b r1 s).2
        else editLoop pfp b r1 s := by
  induction r1 with
  | nil => intro s; simp [editLoop]
  | cons e rest ih =>
    intro s
    simp only [List.cons_append, editLoop]
    split
    · simp
    · split
      · simp
      · split
        · simp
        · split
          · split
            · simp
            · split
              · simp
              · exact ih _
          · split
            · exact ih _
            · exact ih _

theorem formatLoop_cons (pfp : Buffer → Position → Except String Point) (b : Buffer)
    (e : TextEdit) (after : List TextEdit) (ls : List Text) :
    formatLoop pfp b (e :: after) ls
      = if (formatLoop pfp b after ls).1 = none then
          editLoop pfp b [e] (formatLoop pfp b after ls).2
        else formatLoop pfp b after ls := by
  unfold formatLoop
  rw [List.reverse_cons, editLoop_append]

theorem formatLoop_single (pfp : Buffer → Position → Except String Point) (b : Buffer)
    (e : TextEdit) (ls : List Text) :
    formatLoop pfp b [e] ls = editLoop pfp b [e] ⟨ls, []⟩ := rfl

theorem editLoop_reject_text (pfp : Buffer → Position → Except String Point) (b : Buffer)
    (bad : TextEdit) (rest : List TextEdit) (s : LoopState) (start stop : Point)
    (hs : pfp b bad.Range.Start = .ok start) (he : pfp b bad.Range.End = .ok stop)
    (hcol : start.Col = 1 ∧ stop.Col = 1) (hline : start.Line ≠ stop.Line)
    (htext : bad.NewText ≠ []) :
    editLoop pfp b (bad :: rest) s
      = (some "saw an edit where start line != end line with replacement text; We can't currently handle this",
          s) := by
  simp only [editLoop, hs, he, hcol.1, hcol.2, ne_eq, not_true_eq_false, or_self, if_false,
    hline, not_false_eq_true, if_true, htext]

theorem formatLoop_stop (pfp : Buffer → Position → Except String Point) (b : Buffer)
    (before after : List TextEdit) (bad : TextEdit) (ls : List Text) (msg : String)
    (h : ∀ s, editLoop pfp b (bad :: before.reverse) s = (some msg, s)) :
    formatLoop pfp b (before ++ bad :: after) ls
      = if (formatLoop pfp b after ls).1 = none then (some msg, (formatLoop pfp b after ls).2)
        else formatLoop pfp b after ls := by
  have hrev : (before ++ bad :: after).reverse = after.reverse ++ bad :: before.reverse := by
    simp
  unfold formatLoop
  rw [hrev, editLoop_append, h]

theorem splitNewline_no_newline (t : Text) : ∀ l ∈ splitNewline t, '\n' ∉ l := by
  induction t with
  | nil => intro l hl; simp [splitNewline] at hl; simp [hl]
  | cons c cs ih =>
    intro l hl
    unfold splitNewline at hl
    split at hl
    · rcases List.mem_cons.1 hl with h | h
      · simp [h]
      · exact ih l h
    · next hc =>
      rcases List.mem_cons.1 hl with h | h
      · rw [h]
        intro hmem
        rcases List.mem_cons.1 hmem with h1 | h1
        · exact hc h1.symm
        · have hhead : (splitNewline cs).headD [] ∈ splitNewline cs := by
            cases hsp : splitNewline cs with
            | nil => exact absurd hsp (splitNewline_ne_nil cs)
            | cons x xs => simp
          exact ih _ hhead h1
      · exact ih l (List.mem_of_mem_tail h)

/-! ## The two appliers -/

/-- C1 (as amended): for buffer lines `ls` and an edit list, given in ascending
order without overlap, whose members all start and end at the start of a line
of the buffer and either remove whole lines or insert, at a line start, text
that is empty or ends with a newline, the loop of formatCurrentBuffer returns
no error and leaves the buffer with exactly the content that the generic
applier computes from the same edits and the same original content. An edit
that starts and ends at the start of two different lines of the buffer and
carries replacement text is rejected: in whatever list it stands and whatever
the lines of the buffer, the loop returns an error, having applied only the
edits listed after it, and the error is the one for such an edit when those
were all accepted. -/
theorem applier_consistency_line_edits (b : Buffer) (ls : List Text) (edits : List TextEdit)
    (hb : b.Contents = bufContents ls) (hnl : ∀ l ∈ ls, '\n' ∉ l)
    (hshape : ∀ e ∈ edits, LineEdit e ∧ e.Range.End.Line ≤ ls.length)
    (hord : edits.Pairwise (fun x y => x.Range.End.Line ≤ y.Range.Start.Line)) :
    (formatLoop PointFromPosition b edits ls).1 = none ∧
    formatted b edits
      = .ok (bufContents (formatLoop PointFromPosition b edits ls).2.lines) ∧
    (∀ (before after : List TextEdit) (bad : TextEdit) (lines : List Text),
      bad.Range.Start.Character = 0 → bad.Range.End.Character = 0 →
      bad.Range.Start.Line ≤ ls.length → bad.Range.End.Line ≤ ls.length →
      bad.Range.Start.Line ≠ bad.Range.End.Line → bad.NewText ≠ [] →
      (formatLoop PointFromPosition b (before ++ bad :: after) lines).1 ≠ none ∧
      (formatLoop PointFromPosition b (before ++ bad :: after) lines).2
        = (formatLoop PointFromPosition b after lines).2 ∧
      ((formatLoop PointFromPosition b after lines).1 = none →
        (formatLoop PointFromPosition b (before ++ bad :: after) lines).1
          = some "saw an edit where start line != end line with replacement text; We can't currently handle this")) := by
  have h := editLoop_contents b ls hb hnl edits.reverse ⟨ls, []⟩ ls.length
    (fun e he => hshape e (List.mem_reverse.1 he))
    (List.pairwise_reverse.2 hord) (le_refl _) rfl
  refine ⟨h.1, ?_, ?_⟩
  · unfold formatted
    rw [FromProtocolEdits_lineSpan b ls hb hnl edits hshape]
    simp only [ApplyEdits_lineSpan ls _ edits hshape hord, hb]
    unfold formatLoop
    rw [h.2]
  · intro before after bad lines hsc hec hsl hel hne htext
    have hps : PointFromPosition b bad.Range.Start
        = .ok ⟨bad.Range.Start.Line + 1, 1, lineOffset ls bad.Range.Start.Line⟩ := by
      have := PointFromPosition_lineStart b ls bad.Range.Start.Line hb hnl hsl
      rw [← hsc] at this
      exact this
    have hpe : PointFromPosition b bad.Range.End
        = .ok ⟨bad.Range.End.Line + 1, 1, lineOffset ls bad.Range.End.Line⟩ := by
      have := PointFromPosition_lineStart b ls bad.Range.End.Line hb hnl hel
      rw [← hec] at this
      exact this
    have hstop := formatLoop_stop PointFromPosition b before after bad lines _
      (fun s => editLoop_reject_text PointFromPosition b bad before.reverse s _ _ hps hpe
        ⟨rfl, rfl⟩ (by simp only [ne_eq]; omega) htext)
    rw [hstop]
    by_cases hacc : (formatLoop PointFromPosition b after lines).1 = none
    · rw [if_pos hacc]
      exact ⟨by simp, rfl, fun _ => rfl⟩
    · rw [if_neg hacc]
      exact ⟨hacc, rfl, fun h => absurd h hacc⟩

/-- Witness of C1 (as amended): three lines, the first removed, two lines
inserted above the third and one below it. -/
theorem applier_consistency_line_edits_witness :
    (formatLoop PointFromPosition exampleBuffer exampleEdits
        ["a".toList, "b".toList, "c".toList]).1 = none ∧
    formatted exampleBuffer exampleEdits
      = .ok (bufContents (formatLoop PointFromPosition exampleBuffer exampleEdits
        ["a".toList, "b".toList, "c".toList]).2.lines) ∧
    (∀ (before after : List TextEdit) (bad : TextEdit) (lines : List Text),
      bad.Range.Start.Character = 0 → bad.Range.End.Character = 0 →
      bad.Range.Start.Line ≤ ["a".toList, "b".toList, "c".toList].length →
      bad.Range.End.Line ≤ ["a".toList, "b".toList, "c".toList].length →
      bad.Range.Start.Line ≠ bad.Range.End.Line → bad.NewText ≠ [] →
      (formatLoop PointFromPosition exampleBuffer (before ++ bad :: after) lines).1 ≠ none ∧
      (formatLoop PointFromPosition exampleBuffer (before ++ bad :: after) lines).2
        = (formatLoop PointFromPosition exampleBuffer after lines).2 ∧
      ((formatLoop PointFromPosition exampleBuffer after lines).1 = none →
        (formatLoop PointFromPosition exampleBuffer (before ++ bad :: after) lines).1
          = some "saw an edit where start line != end line with replacement text; We can't currently handle this")) :=
  applier_consistency_line_edits exampleBuffer ["a".toList, "b".toList, "c".toList] exampleEdits
    (by decide) (by decide) (by decide) (by decide)

/-- Counterexample to C1 as stated: on the buffer with lines `a`, `b`, three
edit lists whose members all resolve to column 1 at both ends, and on which
the two appliers differ. (1) the replacement of line 1 by `x`: the loop rejects
it and leaves `a b`, the generic applier gives `x b`; (2) the insertion of `x`
without a final newline above line 2: the loop gives `a x b`, the generic
applier `a xb`; (3) two insertions listed bottom first: the loop gives
`x a y b`, the generic applier `x a b y`. -/
theorem applier_consistency_counterexample :
    (PointFromPosition ⟨1, "a.go", "a\nb\n".toList, 0⟩ ⟨0, 0⟩ = .ok ⟨1, 1, 0⟩ ∧
     PointFromPosition ⟨1, "a.go", "a\nb\n".toList, 0⟩ ⟨1, 0⟩ = .ok ⟨2, 1, 2⟩ ∧
     PointFromPosition ⟨1, "a.go", "a\nb\n".toList, 0⟩ ⟨2, 0⟩ = .ok ⟨3, 1, 4⟩) ∧
    ((formatLoop PointFromPosition ⟨1, "a.go", "a\nb\n".toList, 0⟩
        [⟨⟨⟨0, 0⟩, ⟨1, 0⟩⟩, "x\n".toList⟩] ["a".toList, "b".toList]).2.lines
        = ["a".toList, "b".toList] ∧
     formatted ⟨1, "a.go", "a\nb\n".toList, 0⟩ [⟨⟨⟨0, 0⟩, ⟨1, 0⟩⟩, "x\n".toList⟩]
        = .ok "x\nb\n".toList) ∧
    ((formatLoop PointFromPosition ⟨1, "a.go", "a\nb\n".toList, 0⟩
        [⟨⟨⟨1, 0⟩, ⟨1, 0⟩⟩, "x".toList⟩] ["a".toList, "b".toList]).2.lines
        = ["a".toList, "x".toList, "b".toList] ∧
     formatted ⟨1, "a.go", "a\nb\n".toList, 0⟩ [⟨⟨⟨1, 0⟩, ⟨1, 0⟩⟩, "x".toList⟩]
        = .ok "a\nxb\n".toList) ∧
    ((formatLoop PointFromPosition ⟨1, "a.go", "a\nb\n".toList, 0⟩
        [⟨⟨⟨2, 0⟩, ⟨2, 0⟩⟩, "y\n".toList⟩, ⟨⟨⟨0, 0⟩, ⟨0, 0⟩⟩, "x\n".toList⟩]
        ["a".toList, "b".toList]).2.lines
        = ["x".toList, "a".toList, "y".toList, "b".toList] ∧
     formatted ⟨1, "a.go", "a\nb\n".toList, 0⟩
        [⟨⟨⟨2, 0⟩, ⟨2, 0⟩⟩, "y\n".toList⟩, ⟨⟨⟨0, 0⟩, ⟨0, 0⟩⟩, "x\n".toList⟩]
        = .ok "x\na\nb\ny\n".toList) := by
  decide

/-! ## Rejected edits -/

theorem editLoop_reject (pfp : Buffer → Position → Except String Point) (b : Buffer)
    (bad : TextEdit) (rest : List TextEdit) (s : LoopState) (start stop : Point)
    (hs : pfp b bad.Range.Start = .ok start) (he : pfp b bad.Range.End = .ok stop)
    (hcol : start.Col ≠ 1 ∨ stop.Col ≠ 1) :
    (editLoop pfp b (bad :: rest) s).1 ≠ none ∧ (editLoop pfp b (bad :: rest) s).2 = s := by
  simp only [editLoop, hs, he, if_pos hcol]
  simp

/-- C2 (the code at the failing input): the server returns one edit whose start
resolves to column 5 and whose end resolves to column 1, and the loop rejects it
with an error. When the undo file is present as the deferred function runs, and
is removed without error, formatCurrentBuffer returns nil; when the undo file
is absent it returns the error of the loop. -/
theorem formatCurrentBuffer_rejection_overwritten :
    (formatLoop PointFromPosition ⟨1, "a.go", "abcdefg\nb\n".toList, 0⟩
        [⟨⟨⟨0, 4⟩, ⟨1, 0⟩⟩, "x".toList⟩] ["abcdefg".toList, "b".toList]).1
      = some "saw an edit where start col != end col. We can't currently handle this" ∧
    (formatCurrentBuffer
        { tool := FormatOnSave.gofmt, viewport := .ok 1,
          formatting := .ok [⟨⟨⟨0, 4⟩, ⟨1, 0⟩⟩, "x".toList⟩], codeAction := .ok [],
          tempFile := .ok "/tmp/1", undoFilePresent := true, removeResult := none,
          eventignore := "", pfp := PointFromPosition }
        { buffers := [(1, ⟨1, "a.go", "abcdefg\nb\n".toList, 0⟩)], diagnostics := [],
          diagnosticsChanged := false, jumpStack := [], jumpStackPos := 0,
          lastCompleteResults := none }
        ["abcdefg".toList, "b".toList]).1 = none ∧
    (formatCurrentBuffer
        { tool := FormatOnSave.gofmt, viewport := .ok 1,
          formatting := .ok [⟨⟨⟨0, 4⟩, ⟨1, 0⟩⟩, "x".toList⟩], codeAction := .ok [],
          tempFile := .ok "/tmp/1", undoFilePresent := false, removeResult := none,
          eventignore := "", pfp := PointFromPosition }
        { buffers := [(1, ⟨1, "a.go", "abcdefg\nb\n".toList, 0⟩)], diagnostics := [],
          diagnosticsChanged := false, jumpStack := [], jumpStackPos := 0,
          lastCompleteResults := none }
        ["abcdefg".toList, "b".toList]).1
      = some "saw an edit where start col != end col. We can't currently handle this" := by
  decide

/-- C3 (as amended): when an edit list has a member whose start or end does not
resolve to column 1, the loop of formatCurrentBuffer returns an error, and the
line mutations it has issued and the buffer it leaves are those of the edits
listed after that member, which the loop visits first; the edits listed before
it are never applied. When the member is the last of the list, no line mutation
is issued and the buffer is unchanged. -/
theorem rejection_keeps_later_edits (pfp : Buffer → Position → Except String Point)
    (b : Buffer) (before after : List TextEdit) (bad : TextEdit) (ls : List Text)
    (start stop : Point)
    (hs : pfp b bad.Range.Start = .ok start) (he : pfp b bad.Range.End = .ok stop)
    (hcol : start.Col ≠ 1 ∨ stop.Col ≠ 1) :
    (formatLoop pfp b (before ++ bad :: after) ls).1 ≠ none ∧
    (formatLoop pfp b (before ++ bad :: after) ls).2 = (formatLoop pfp b after ls).2 ∧
    (after = [] → (formatLoop pfp b (before ++ bad :: after) ls).2 = ⟨ls, []⟩) := by
  have hrev : (before ++ bad :: after).reverse = after.reverse ++ bad :: before.reverse := by
    simp
  have hrej := fun s => editLoop_reject pfp b bad before.reverse s start stop hs he hcol
  have hmain : (formatLoop pfp b (before ++ bad :: after) ls).1 ≠ none ∧
      (formatLoop pfp b (before ++ bad :: after) ls).2 = (formatLoop pfp b after ls).2 := by
    unfold formatLoop
    rw [hrev, editLoop_append]
    by_cases h : (editLoop pfp b after.reverse ⟨ls, []⟩).1 = none
    · rw [if_pos h]
      exact hrej _
    · rw [if_neg h]
      exact ⟨h, rfl⟩
  refine ⟨hmain.1, hmain.2, ?_⟩
  intro h
  rw [hmain.2, h]
  rfl

/-- Witness of C3 (as amended): the rejected edit (columns 5 and 1) is the last
of the list, after an insertion above line 1; nothing is applied. -/
theorem rejection_keeps_later_edits_witness :
    (formatLoop PointFromPosition ⟨1, "a.go", "abcdefg\nb\n".toList, 0⟩
        ([⟨⟨⟨0, 0⟩, ⟨0, 0⟩⟩, "x\n".toList⟩] ++ ⟨⟨⟨0, 4⟩, ⟨1, 0⟩⟩, "x".toList⟩ :: [])
        ["abcdefg".toList, "b".toList]).1 ≠ none ∧
    (formatLoop PointFromPosition ⟨1, "a.go", "abcdefg\nb\n".toList, 0⟩
        ([⟨⟨⟨0, 0⟩, ⟨0, 0⟩⟩, "x\n".toList⟩] ++ ⟨⟨⟨0, 4⟩, ⟨1, 0⟩⟩, "x".toList⟩ :: [])
        ["abcdefg".toList, "b".toList]).2
      = (formatLoop PointFromPosition ⟨1, "a.go", "abcdefg\nb\n".toList, 0⟩
        [] ["abcdefg".toList, "b".toList]).2 ∧
    (([] : List TextEdit) = [] →
      (formatLoop PointFromPosition ⟨1, "a.go", "abcdefg\nb\n".toList, 0⟩
        ([⟨⟨⟨0, 0⟩, ⟨0, 0⟩⟩, "x\n".toList⟩] ++ ⟨⟨⟨0, 4⟩, ⟨1, 0⟩⟩, "x".toList⟩ :: [])
        ["abcdefg".toList, "b".toList]).2 = ⟨["abcdefg".toList, "b".toList], []⟩) :=
  rejection_keeps_later_edits PointFromPosition ⟨1, "a.go", "abcdefg\nb\n".toList, 0⟩
    [⟨⟨⟨0, 0⟩, ⟨0, 0⟩⟩, "x\n".toList⟩] [] ⟨⟨⟨0, 4⟩, ⟨1, 0⟩⟩, "x".toList⟩
    ["abcdefg".toList, "b".toList] ⟨1, 5, 4⟩ ⟨2, 1, 8⟩
    (by decide) (by decide) (by decide)

/-- Counterexample to C3 as stated: the edit list holds an edit with columns 5
and 1 followed by the insertion of the line `y` above line 2. The loop applies
the insertion, then rejects the other edit: an `append` has been issued and the
buffer has three lines instead of two. -/
theorem rejection_atomic_counterexample :
    PointFromPosition ⟨1, "a.go", "abcdefg\nb\n".toList, 0⟩ ⟨0, 4⟩ = .ok ⟨1, 5, 4⟩ ∧
    formatLoop PointFromPosition ⟨1, "a.go", "abcdefg\nb\n".toList, 0⟩
        [⟨⟨⟨0, 4⟩, ⟨1, 0⟩⟩, "x".toList⟩, ⟨⟨⟨1, 0⟩, ⟨1, 0⟩⟩, "y\n".toList⟩]
        ["abcdefg".toList, "b".toList]
      = (some "saw an edit where start col != end col. We can't currently handle this",
         ⟨["abcdefg".toList, "y".toList, "b".toList], [VimCall.append 1 ["y".toList]]⟩) := by
  decide


/-! ## Jump stack -/

theorem gotoDef_one (q : DefQuery) (v : vimstate) (c : CursorPos) (loc : Location)
    (hmode : modeAccepted q = true)
    (hcur : q.cursor = .ok c) (hdef : q.definition = .ok [loc])
    (h0 : 0 ≤ v.jumpStackPos) (hlen : v.jumpStackPos ≤ v.jumpStack.length) :
    gotoDef q v = some (q.load,
      { v with
        jumpStack := v.jumpStack.take v.jumpStackPos.toNat
          ++ [⟨c.b.URI, ⟨c.position, c.position⟩⟩]
        jumpStackPos := v.jumpStackPos + 1 },
      [NavEffect.loadLocation loc]) := by
  simp [gotoDef, hmode, hcur, hdef, sliceTo, h0, hlen]

/-- C4: when the mode argument is accepted, the cursor position is obtained and
the server returns exactly one location, gotoDef, from sequence `s` and cursor
`p` with `0 ≤ p ≤ len(s)`, leaves the first `p` entries of `s` followed by the
location made of the current buffer's URI and of the cursor position (as start
and as end of the range), sets the cursor to `p + 1`, which is the new length,
and loads the location the server returned. -/
theorem gotoDef_push (q : DefQuery) (v : vimstate) (c : CursorPos) (loc : Location)
    (hmode : modeAccepted q = true)
    (hcur : q.cursor = .ok c) (hdef : q.definition = .ok [loc])
    (h0 : 0 ≤ v.jumpStackPos) (hlen : v.jumpStackPos ≤ v.jumpStack.length) :
    gotoDef q v = some (q.load,
      { v with
        jumpStack := v.jumpStack.take v.jumpStackPos.toNat
          ++ [⟨c.b.URI, ⟨c.position, c.position⟩⟩]
        jumpStackPos := v.jumpStackPos + 1 },
      [NavEffect.loadLocation loc]) ∧
    (v.jumpStackPos + 1 : Int)
      = ((v.jumpStack.take v.jumpStackPos.toNat
          ++ [(⟨c.b.URI, ⟨c.position, c.position⟩⟩ : Location)]).length : Int) := by
  refine ⟨gotoDef_one q v c loc hmode hcur hdef h0 hlen, ?_⟩
  simp only [List.length_append, List.length_take, List.length_singleton]
  omega

/-- Witness of C4: a stack of two entries with the cursor at 1. -/
theorem gotoDef_push_witness :
    gotoDef
        { args := [], knownMode := fun _ => false,
          cursor := .ok ⟨⟨1, "/a.go", [], 0⟩, ⟨3, 1, 0⟩, ⟨2, 0⟩⟩,
          definition := .ok [⟨"file:///d.go", ⟨⟨7, 0⟩, ⟨7, 1⟩⟩⟩], load := none }
        { buffers := [], diagnostics := [], diagnosticsChanged := false,
          jumpStack := [⟨"file:///x.go", ⟨⟨0, 0⟩, ⟨0, 0⟩⟩⟩, ⟨"file:///y.go", ⟨⟨1, 0⟩, ⟨1, 0⟩⟩⟩],
          jumpStackPos := 1, lastCompleteResults := none }
      = some (none,
        { buffers := [], diagnostics := [], diagnosticsChanged := false,
          jumpStack := ([⟨"file:///x.go", ⟨⟨0, 0⟩, ⟨0, 0⟩⟩⟩,
              ⟨"file:///y.go", ⟨⟨1, 0⟩, ⟨1, 0⟩⟩⟩] : List Location).take (1 : Int).toNat
            ++ [⟨(⟨1, "/a.go", [], 0⟩ : Buffer).URI, ⟨⟨2, 0⟩, ⟨2, 0⟩⟩⟩],
          jumpStackPos := 1 + 1, lastCompleteResults := none },
        [NavEffect.loadLocation ⟨"file:///d.go", ⟨⟨7, 0⟩, ⟨7, 1⟩⟩⟩]) ∧
    ((1 : Int) + 1 : Int)
      = ((([⟨"file:///x.go", ⟨⟨0, 0⟩, ⟨0, 0⟩⟩⟩,
              ⟨"file:///y.go", ⟨⟨1, 0⟩, ⟨1, 0⟩⟩⟩] : List Location).take (1 : Int).toNat
            ++ [(⟨(⟨1, "/a.go", [], 0⟩ : Buffer).URI, ⟨⟨2, 0⟩, ⟨2, 0⟩⟩⟩ : Location)]).length
          : Int) :=
  gotoDef_push
    { args := [], knownMode := fun _ => false,
      cursor := .ok ⟨⟨1, "/a.go", [], 0⟩, ⟨3, 1, 0⟩, ⟨2, 0⟩⟩,
      definition := .ok [⟨"file:///d.go", ⟨⟨7, 0⟩, ⟨7, 1⟩⟩⟩], load := none }
    { buffers := [], diagnostics := [], diagnosticsChanged := false,
      jumpStack := [⟨"file:///x.go", ⟨⟨0, 0⟩, ⟨0, 0⟩⟩⟩, ⟨"file:///y.go", ⟨⟨1, 0⟩, ⟨1, 0⟩⟩⟩],
      jumpStackPos := 1, lastCompleteResults := none }
    ⟨⟨1, "/a.go", [], 0⟩, ⟨3, 1, 0⟩, ⟨2, 0⟩⟩ ⟨"file:///d.go", ⟨⟨7, 0⟩, ⟨7, 1⟩⟩⟩
    rfl rfl rfl (by decide) (by decide)

/-- C5: from sequence `s` and cursor `p ≤ len(s)`, gotoPrevDef with a count
`c ≥ 1`: when `p = 0` it reports "Already at top of stack", loads nothing and
leaves the state unchanged; when `p > 0` it sets the cursor to `max (p - c) 0`,
leaves the sequence unchanged and loads the entry of `s` at the new cursor. -/
theorem gotoPrevDef_pop (load : Option String) (v : vimstate) (c : Int)
    (hlen : v.jumpStackPos ≤ v.jumpStack.length) (hc : 1 ≤ c) :
    (v.jumpStackPos = 0 →
      gotoPrevDef load ⟨some c⟩ v
        = some (none, v, [NavEffect.ex "echom \"Already at top of stack\""])) ∧
    (0 < v.jumpStackPos →
      ∃ loc, v.jumpStack.get? (max (v.jumpStackPos - c) 0).toNat = some loc ∧
        gotoPrevDef load ⟨some c⟩ v
          = some (load, { v with jumpStackPos := max (v.jumpStackPos - c) 0 },
              [NavEffect.loadLocation loc])) := by
  constructor
  · intro hp
    simp [gotoPrevDef, hp]
  · intro hp
    have hlt : (max (v.jumpStackPos - c) 0).toNat < v.jumpStack.length := by omega
    refine ⟨v.jumpStack.get ⟨_, hlt⟩, List.get?_eq_get hlt, ?_⟩
    have hne : v.jumpStackPos ≠ 0 := by omega
    have hmax : (if v.jumpStackPos - c < 0 then 0 else v.jumpStackPos - c)
        = max (v.jumpStackPos - c) 0 := by
      split <;> omega
    simp only [gotoPrevDef, if_neg hne, hmax, index]
    have hnn : 0 ≤ max (v.jumpStackPos - c) 0 := by omega
    rw [if_pos hnn, List.get?_eq_get hlt]

/-- Witness of C5: three entries, cursor at 2, count 5. -/
theorem gotoPrevDef_pop_witness :
    (exampleNav.jumpStackPos = 0 →
      gotoPrevDef none ⟨some 5⟩ exampleNav
        = some (none, exampleNav, [NavEffect.ex "echom \"Already at top of stack\""])) ∧
    (0 < exampleNav.jumpStackPos →
      ∃ loc, exampleNav.jumpStack.get? (max (exampleNav.jumpStackPos - 5) 0).toNat = some loc ∧
        gotoPrevDef none ⟨some 5⟩ exampleNav
          = some (none, { exampleNav with jumpStackPos := max (exampleNav.jumpStackPos - 5) 0 },
              [NavEffect.loadLocation loc])) :=
  gotoPrevDef_pop none exampleNav 5 (by decide) (by decide)

theorem setPos_self (v : vimstate) (p : Int) (h : v.jumpStackPos = p) :
    { v with jumpStackPos := p } = v := by
  cases v; cases h; rfl

theorem runGotoDef_push : ∀ (cs : List (DefQuery × CursorPos × Location)) (v : vimstate),
    (∀ x ∈ cs, modeAccepted x.1 = true ∧ x.1.cursor = .ok x.2.1 ∧ x.1.definition = .ok [x.2.2]) →
    v.jumpStackPos = v.jumpStack.length →
    ∃ eff, runGotoDef (cs.map (fun x => x.1)) v
      = some ({ v with
          jumpStack := v.jumpStack
            ++ cs.map (fun x => (⟨x.2.1.b.URI, ⟨x.2.1.position, x.2.1.position⟩⟩ : Location))
          jumpStackPos := v.jumpStackPos + cs.length }, eff) := by
  intro cs
  induction cs with
  | nil =>
    intro v _ _
    refine ⟨[], ?_⟩
    simp [runGotoDef]
  | cons x rest ih =>
    intro v hall hpos
    obtain ⟨hm, hc, hd⟩ := hall x (by simp)
    have h1 := gotoDef_one x.1 v x.2.1 x.2.2 hm hc hd (by omega) (by omega)
    have htake : v.jumpStack.take v.jumpStackPos.toNat = v.jumpStack := by
      rw [hpos]; simp
    rw [htake] at h1
    obtain ⟨eff, h2⟩ := ih
      { v with
        jumpStack := v.jumpStack ++ [⟨x.2.1.b.URI, ⟨x.2.1.position, x.2.1.position⟩⟩]
        jumpStackPos := v.jumpStackPos + 1 }
      (fun y hy => hall y (by simp [hy])) (by simp [hpos])
    refine ⟨[NavEffect.loadLocation x.2.2] ++ eff, ?_⟩
    simp only [List.map_cons, runGotoDef, h1, h2]
    simp
    omega

theorem runGotoPrevDef_back : ∀ (s t : List Location) (loads : List (Option String))
    (v : vimstate), v.jumpStack = s ++ t → v.jumpStackPos = s.length →
    loads.length = s.length →
    runGotoPrevDef loads v
      = some ({ v with jumpStackPos := 0 }, s.reverse.map NavEffect.loadLocation) := by
  intro s
  induction s using List.reverseRecOn with
  | nil =>
    intro t loads v _ hpos hl
    have : loads = [] := by simpa using hl
    subst this
    simp [runGotoPrevDef, setPos_self v 0 (by simpa using hpos)]
  | append_singleton s x ih =>
    intro t loads v hst hpos hl
    cases loads with
    | nil => simp at hl
    | cons l ls =>
      have hl' : ls.length = s.length := by simpa using hl
      have hpos' : v.jumpStackPos = (s.length : Int) + 1 := by simpa using hpos
      have hidx : index v.jumpStack (s.length : Int) = some x := by
        have hget : (s ++ [x] ++ t).get? s.length = some x := by
          rw [List.get?_eq_getElem?, List.append_assoc,
            List.getElem?_append_right (le_refl _)]
          simp
        simp only [index, hst]
        rw [if_pos (by omega), Int.toNat_ofNat, hget]
      have hstep : gotoPrevDef l ⟨some 1⟩ v
          = some (l, { v with jumpStackPos := (s.length : Int) }, [NavEffect.loadLocation x]) := by
        have hne : v.jumpStackPos ≠ 0 := by omega
        have hsub : v.jumpStackPos - 1 = (s.length : Int) := by omega
        have hnn : ¬ ((s.length : Int) < 0) := by omega
        simp only [gotoPrevDef, if_neg hne, hsub, if_neg hnn, hidx]
      have h2 := ih ([x] ++ t) ls { v with jumpStackPos := (s.length : Int) }
        (by simp [hst]) rfl hl'
      simp only [runGotoPrevDef, hstep, h2]
      simp

/-- C6: starting from the empty jump stack, `n` gotoDef calls that each get
exactly one location from the server, followed by `n` gotoPrevDef calls with
count 1, load the `n` locations the calls were invoked from in reverse order
and leave the cursor at 0; one more gotoPrevDef call then loads nothing, leaves
the state unchanged and reports "Already at top of stack". -/
theorem navigation_round_trip (cs : List (DefQuery × CursorPos × Location))
    (loads : List (Option String)) (last : Option String) (v : vimstate)
    (hempty : v.jumpStack = [] ∧ v.jumpStackPos = 0)
    (hcalls : ∀ x ∈ cs,
      modeAccepted x.1 = true ∧ x.1.cursor = .ok x.2.1 ∧ x.1.definition = .ok [x.2.2])
    (hloads : loads.length = cs.length) :
    ∃ v1 eff1 v2, runGotoDef (cs.map (fun x => x.1)) v = some (v1, eff1) ∧
      runGotoPrevDef loads v1
        = some (v2, (cs.map (fun x =>
            (⟨x.2.1.b.URI, ⟨x.2.1.position, x.2.1.position⟩⟩ : Location))).reverse.map
              NavEffect.loadLocation) ∧
      v2.jumpStackPos = 0 ∧
      gotoPrevDef last ⟨some 1⟩ v2
        = some (none, v2, [NavEffect.ex "echom \"Already at top of stack\""]) := by
  obtain ⟨eff1, h1⟩ := runGotoDef_push cs v hcalls (by simp [hempty.1, hempty.2])
  have h2 := runGotoPrevDef_back
    (cs.map (fun x => (⟨x.2.1.b.URI, ⟨x.2.1.position, x.2.1.position⟩⟩ : Location))) [] loads
    { v with
      jumpStack := v.jumpStack
        ++ cs.map (fun x => (⟨x.2.1.b.URI, ⟨x.2.1.position, x.2.1.position⟩⟩ : Location))
      jumpStackPos := v.jumpStackPos + cs.length }
    (by simp [hempty.1]) (by simp [hempty.2]) (by simpa using hloads)
  refine ⟨_, eff1, _, h1, h2, rfl, ?_⟩
  simp [gotoPrevDef]

/-- Witness of C6: three calls, from `a.go`, `b.go` and `c.go`. -/
theorem navigation_round_trip_witness :
    ∃ v1 eff1 v2, runGotoDef (exampleCalls.map (fun x => x.1)) emptySession = some (v1, eff1) ∧
      runGotoPrevDef [none, none, none] v1
        = some (v2, (exampleCalls.map (fun x =>
            (⟨x.2.1.b.URI, ⟨x.2.1.position, x.2.1.position⟩⟩ : Location))).reverse.map
              NavEffect.loadLocation) ∧
      v2.jumpStackPos = 0 ∧
      gotoPrevDef none ⟨some 1⟩ v2
        = some (none, v2, [NavEffect.ex "echom \"Already at top of stack\""]) :=
  navigation_round_trip exampleCalls [none, none, none] none emptySession
    (by decide) (by decide) (by decide)


/-! ## Document synchronisation -/

theorem mapGet_mapSet {κ β : Type} [DecidableEq κ] (m : List (κ × β)) (k : κ) (x : β) :
    mapGet (mapSet m k x) k = some x := by
  simp [mapGet, mapSet]

theorem handleEvent_seen (ev : BufEvent) (v : vimstate) (cb : Buffer) (m : Nat)
    (hget : mapGet v.buffers ev.info.Num = some cb) (hver : cb.Version = m) :
    (handleEvent ev v).2.2
        = [Notification.DidChange ev.info.URI (m + 1) [ev.info.Contents]] ∧
      ∃ cb1, mapGet (handleEvent ev v).2.1.buffers ev.info.Num = some cb1 ∧
        cb1.Version = ((m + 1 : Nat) : Int) := by
  have hne : ¬ ((m : Int) + 1 = 0) := by omega
  cases hr : ev.reread <;>
    simp [handleEvent, hr, bufReadPost, bufTextChanged, hget, handleBufferEvent, hne,
      mapGet_mapSet, hver, Buffer.URI]

theorem mapGet_mapSet_ne {κ β : Type} [DecidableEq κ] (m : List (κ × β)) (k h : κ) (x : β)
    (hne : k ≠ h) : mapGet (mapSet m k x) h = mapGet m h := by
  unfold mapGet mapSet
  rw [List.find?_cons_of_neg _ (by simpa using hne)]
  congr 1
  induction m with
  | nil => rfl
  | cons kv rest ih =>
    by_cases hk : kv.1 = k
    · have hkh : ¬ kv.1 = h := fun e => hne (hk ▸ e)
      rw [List.filter_cons_of_neg (by simpa using hk), ih,
        List.find?_cons_of_neg _ (by simpa using hkh)]
    · rw [List.filter_cons_of_pos (by simpa using hk)]
      by_cases hkh : kv.1 = h
      · rw [List.find?_cons_of_pos _ (by simpa using hkh),
          List.find?_cons_of_pos _ (by simpa using hkh)]
      · rw [List.find?_cons_of_neg _ (by simpa using hkh),
          List.find?_cons_of_neg _ (by simpa using hkh), ih]

theorem handleBufferEvent_buffers (reply : Option String) (b : Buffer) (v : vimstate) :
    (handleBufferEvent reply b v).2.1.buffers = mapSet v.buffers b.Num b := by
  unfold handleBufferEvent
  split <;> rfl

theorem handleEvent_other (ev : BufEvent) (v : vimstate) (h : Int) (hne : ev.info.Num ≠ h) :
    mapGet (handleEvent ev v).2.1.buffers h = mapGet v.buffers h := by
  cases hr : ev.reread <;> cases hm : mapGet v.buffers ev.info.Num <;>
    simp only [handleEvent, bufReadPost, bufTextChanged, hr, hm, Bool.false_eq_true, if_false,
      if_true, handleBufferEvent_buffers] <;>
    first | rfl | exact mapGet_mapSet_ne _ _ _ _ hne

theorem runEventsFor_seen (h : Int) :
    ∀ (evs : List BufEvent) (v : vimstate) (cb : Buffer) (m : Nat),
    mapGet v.buffers h = some cb → cb.Version = m →
    runEventsFor h evs v
      = ((evs.filter (fun ev => decide (ev.info.Num = h))).enumFrom (m + 1)).map
          (fun p => expectedNotification p.1 p.2) := by
  intro evs
  induction evs with
  | nil => intro v cb m _ _; rfl
  | cons ev rest ih =>
    intro v cb m hget hver
    by_cases hnum : ev.info.Num = h
    · obtain ⟨h1, cb1, h2, h3⟩ := handleEvent_seen ev v cb m (by rw [hnum]; exact hget) hver
      rw [hnum] at h2
      have := ih (handleEvent ev v).2.1 cb1 (m + 1) h2 h3
      rw [List.filter_cons_of_pos (by simpa using hnum)]
      simp only [runEventsFor, if_pos hnum, h1, this, List.enumFrom_cons, List.map_cons,
        expectedNotification]
      simp
    · have := ih (handleEvent ev v).2.1 cb m
        (by rw [handleEvent_other ev v h hnum]; exact hget) hver
      rw [List.filter_cons_of_neg (by simpa using hnum)]
      simp only [runEventsFor, if_neg hnum, this, List.nil_append]

/-- C7: in a session that has not seen the buffer with handle `h`, and for any
sequence of buffer events (of this and of other buffers) in which the first
event of `h` is a bufReadPost, the notifications sent for the events of `h`
are, in order, one per event: for the first a DidOpen with version 0 and the
full content, for the event numbered `k` (from 0) a DidChange with version `k`
and a single content change holding the full content, whether the event is a
bufTextChanged or a bufReadPost that reads the buffer again. -/
theorem notification_sequence (h : Int) (evs : List BufEvent) (v : vimstate)
    (hnew : mapGet v.buffers h = none)
    (hfirst : ∀ ev ∈ (evs.filter (fun ev => decide (ev.info.Num = h))).head?,
      ev.reread = true) :
    runEventsFor h evs v
      = ((evs.filter (fun ev => decide (ev.info.Num = h))).enum.map
          (fun p => expectedNotification p.1 p.2)) := by
  induction evs generalizing v with
  | nil => rfl
  | cons ev rest ih =>
    by_cases hnum : ev.info.Num = h
    · rw [List.filter_cons_of_pos (by simpa using hnum)] at hfirst ⊢
      have hre : ev.reread = true := hfirst ev (by simp)
      have h1 : handleEvent ev v
          = (ev.reply, { v with buffers := mapSet v.buffers h { ev.info with Version := 0 } },
              [Notification.DidOpen ev.info.URI 0 ev.info.Contents]) := by
        simp [handleEvent, hre, bufReadPost, hnum, hnew, handleBufferEvent, Buffer.URI]
      have h2 := runEventsFor_seen h rest
        { v with buffers := mapSet v.buffers h { ev.info with Version := 0 } }
        { ev.info with Version := 0 } 0 (mapGet_mapSet _ _ _) rfl
      simp only [runEventsFor, if_pos hnum, h1, h2, List.enum, List.enumFrom_cons, List.map_cons,
        expectedNotification]
      simp
    · rw [List.filter_cons_of_neg (by simpa using hnum)] at hfirst ⊢
      have := ih (handleEvent ev v).2.1
        (by rw [handleEvent_other ev v h hnum]; exact hnew) hfirst
      simp only [runEventsFor, if_neg hnum, this, List.nil_append]

/-- Witness of C7: buffer 4 is read, changed, read again (`:e!`) and changed,
with events of buffer 5 in between; the versions sent for buffer 4 are 0, 1, 2,
3 and only the first notification is a DidOpen. -/
theorem notification_sequence_witness :
    runEventsFor 4 exampleEvents emptySession
      = ((exampleEvents.filter (fun ev => decide (ev.info.Num = 4))).enum.map
          (fun p => expectedNotification p.1 p.2)) :=
  notification_sequence 4 exampleEvents emptySession (by decide) (by decide)

/-! ## Quickfix list -/

theorem diagFixes_ok (w : QuickfixWorld) (buf : Buffer) (fn : String) (pt : Position → Point) :
    ∀ (ds : List Diagnostic) (acc : Slice quickfixEntry),
      (∀ d ∈ ds, w.pfp buf d.Range.Start = .ok (pt d.Range.Start)) →
      diagFixes w buf fn ds acc
        = .ok (if ds = [] then acc else some (acc.elems ++ ds.map (fun d =>
            (⟨fn, (pt d.Range.Start).Line, (pt d.Range.Start).Col, d.Message⟩ : quickfixEntry)))) := by
  intro ds
  induction ds with
  | nil => intro acc _; rfl
  | cons d rest ih =>
    intro acc h
    simp only [diagFixes, h d (by simp)]
    rw [ih _ (fun d' hd' => h d' (by simp [hd']))]
    cases rest with
    | nil => simp [Slice.push, Slice.elems]
    | cons d2 rest2 => simp [Slice.push, Slice.elems]

theorem uriFixes_ok (w : QuickfixWorld) (v : vimstate) (fn rp : String → String)
    (buf : String → Buffer) (pt : String → Position → Point) :
    ∀ (us : List String) (acc : List quickfixEntry),
      (∀ u ∈ us, w.filename u = .ok (fn u)) →
      (∀ u ∈ us, fileBuffer w v u (fn u) = .ok (buf u)) →
      (∀ u ∈ us, w.rel w.cwd (fn u) = .ok (rp u)) →
      (∀ u ∈ us, ∀ d ∈ (mapGet v.diagnostics u).getD [],
        w.pfp (buf u) d.Range.Start = .ok (pt u d.Range.Start)) →
      uriFixes w v us (some acc)
        = .ok (some (acc ++ us.flatMap (fun u => ((mapGet v.diagnostics u).getD []).map (fun d =>
            (⟨rp u, (pt u d.Range.Start).Line, (pt u d.Range.Start).Col, d.Message⟩
              : quickfixEntry))))) := by
  intro us
  induction us with
  | nil => intro acc _ _ _ _; simp [uriFixes]
  | cons u rest ih =>
    intro acc h1 h2 h3 h4
    simp only [uriFixes, h1 u (by simp), h2 u (by simp), h3 u (by simp)]
    rw [diagFixes_ok w (buf u) (rp u) (pt u) _ _ (h4 u (by simp))]
    have hacc : (if (mapGet v.diagnostics u).getD [] = [] then (some acc : Slice quickfixEntry)
        else some (Slice.elems (some acc)
          ++ ((mapGet v.diagnostics u).getD []).map (fun d =>
            (⟨rp u, (pt u d.Range.Start).Line, (pt u d.Range.Start).Col, d.Message⟩
              : quickfixEntry))))
        = some (acc ++ ((mapGet v.diagnostics u).getD []).map (fun d =>
            (⟨rp u, (pt u d.Range.Start).Line, (pt u d.Range.Start).Col, d.Message⟩
              : quickfixEntry))) := by
      split
      · next h => rw [h]; simp
      · rfl
    simp only [hacc]
    rw [ih _ (fun x hx => h1 x (by simp [hx])) (fun x hx => h2 x (by simp [hx]))
      (fun x hx => h3 x (by simp [hx])) (fun x hx => h4 x (by simp [hx]))]
    simp [List.flatMap_cons]

theorem sortURIs_perm (fns : List String) : (sortURIs fns).Perm fns :=
  List.perm_insertionSort _ fns

theorem sortURIs_sorted (fns : List String) (h : fns.Nodup) :
    (sortURIs fns).Sorted (fun a b => a < b) :=
  (List.sorted_insertionSort (fun a b : String => a ≤ b) fns).lt_of_le
    ((sortURIs_perm fns).nodup_iff.2 h)

/-- C8: when the dirty flag is set and, for every URI of the diagnostics map,
the file name, the buffer, the relative path and every diagnostic position
resolve, updateQuickfix issues exactly one setqflist call, with action "r" and
a non-nil list: the concatenation, over the URIs of the map in ascending order,
of one entry (relative path, editor line, editor column, message) per
diagnostic of the URI, in their stored order. For an empty map the list is
empty. -/
theorem quickfix_content (w : QuickfixWorld) (v : vimstate) (fn rp : String → String)
    (buf : String → Buffer) (pt : String → Position → Point)
    (hdirty : v.diagnosticsChanged = true)
    (hkeys : (v.diagnostics.map (fun kv => kv.1)).Nodup)
    (hfn : ∀ u ∈ v.diagnostics.map (fun kv => kv.1), w.filename u = .ok (fn u))
    (hbuf : ∀ u ∈ v.diagnostics.map (fun kv => kv.1), fileBuffer w v u (fn u) = .ok (buf u))
    (hrel : ∀ u ∈ v.diagnostics.map (fun kv => kv.1), w.rel w.cwd (fn u) = .ok (rp u))
    (hpt : ∀ u ∈ v.diagnostics.map (fun kv => kv.1), ∀ d ∈ (mapGet v.diagnostics u).getD [],
      w.pfp (buf u) d.Range.Start = .ok (pt u d.Range.Start)) :
    ∃ us : List String, us.Perm (v.diagnostics.map (fun kv => kv.1)) ∧
      us.Sorted (fun a b => a < b) ∧
      (updateQuickfix w v).2.2
        = [QuickfixCall.setqflist
            (some (us.flatMap (fun u => ((mapGet v.diagnostics u).getD []).map (fun d =>
              (⟨rp u, (pt u d.Range.Start).Line, (pt u d.Range.Start).Col, d.Message⟩
                : quickfixEntry))))) "r"] ∧
      (v.diagnostics = [] → (updateQuickfix w v).2.2 = [QuickfixCall.setqflist (some []) "r"]) := by
  have hmem : ∀ u ∈ sortURIs (v.diagnostics.map (fun kv => kv.1)),
      u ∈ v.diagnostics.map (fun kv => kv.1) :=
    fun u hu => (sortURIs_perm _).mem_iff.1 hu
  have hrun := uriFixes_ok w v fn rp buf pt (sortURIs (v.diagnostics.map (fun kv => kv.1))) []
    (fun u hu => hfn u (hmem u hu)) (fun u hu => hbuf u (hmem u hu))
    (fun u hu => hrel u (hmem u hu)) (fun u hu => hpt u (hmem u hu))
  have hcall : (updateQuickfix w v).2.2
      = [QuickfixCall.setqflist
          (some ((sortURIs (v.diagnostics.map (fun kv => kv.1))).flatMap (fun u =>
            ((mapGet v.diagnostics u).getD []).map (fun d =>
              (⟨rp u, (pt u d.Range.Start).Line, (pt u d.Range.Start).Col, d.Message⟩
                : quickfixEntry))))) "r"] := by
    simp [updateQuickfix, hdirty, hrun]
  refine ⟨_, sortURIs_perm _, sortURIs_sorted _ hkeys, hcall, ?_⟩
  intro hnil
  rw [hcall, hnil]
  rfl


/-- Witness of C8: the design's example; `fileB.go` is an open buffer,
`fileA.go` is read from disk. -/
theorem quickfix_content_witness :
    ∃ us : List String, us.Perm (exampleDiagnostics.diagnostics.map (fun kv => kv.1)) ∧
      us.Sorted (fun a b => a < b) ∧
      (updateQuickfix exampleDiagWorld exampleDiagnostics).2.2
        = [QuickfixCall.setqflist
            (some (us.flatMap (fun u =>
              ((mapGet exampleDiagnostics.diagnostics u).getD []).map (fun d =>
                (⟨u, d.Range.Start.Line + 1, d.Range.Start.Character + 1, d.Message⟩
                  : quickfixEntry))))) "r"] ∧
      (exampleDiagnostics.diagnostics = [] →
        (updateQuickfix exampleDiagWorld exampleDiagnostics).2.2
          = [QuickfixCall.setqflist (some []) "r"]) :=
  quickfix_content exampleDiagWorld exampleDiagnostics (fun u => u) (fun u => u)
    (fun u => if u = "file://fileB.go" then ⟨1, "fileB.go", "x\ny\nz\n".toList, 3⟩
      else ⟨-1, u, "x\ny\nz\n".toList, 0⟩)
    (fun _ pos => ⟨pos.Line + 1, pos.Character + 1, 2 * pos.Line + pos.Character⟩)
    (by decide) (by decide) (by decide) (by decide) (by decide) (by decide)

theorem completeMatches_elems : ∀ (items : List CompletionItem) (acc : Slice completionResult),
    (completeMatches items acc).elems
      = acc.elems ++ items.map (fun i => (⟨i.Label, i.TextEdit.NewText, i.Detail⟩ : completionResult)) := by
  intro items
  induction items with
  | nil => intro acc; simp [completeMatches]
  | cons i rest ih =>
    intro acc
    rw [completeMatches, ih]
    simp [Slice.push, Slice.elems]

/-- C10: with a cached completion list, a call of complete whose first argument
is not 1 returns without error, leaves the state as it was and returns one
display record per cached item, in the order of the items, the record of item
`i` having `Abbr = i.Label`, `Word = i.TextEdit.NewText` and
`Info = i.Detail`. -/
theorem complete_matches (findstart : Int) (cursor : Except String CursorPos)
    (completion : Except String (Option CompletionList)) (v : vimstate) (res : CompletionList)
    (hfind : findstart ≠ 1) (hcache : v.lastCompleteResults = some res) :
    ∃ ms : Slice completionResult,
      complete findstart cursor completion v = some (CompleteValue.matches ms, none, v) ∧
      ms.elems = res.Items.map (fun i =>
        (⟨i.Label, i.TextEdit.NewText, i.Detail⟩ : completionResult)) ∧
      ms.elems.length = res.Items.length := by
  refine ⟨completeMatches res.Items none, ?_, ?_, ?_⟩
  · simp [complete, hfind, hcache]
  · rw [completeMatches_elems]; simp [Slice.elems]
  · rw [completeMatches_elems]; simp [Slice.elems]

/-- Witness of C10: two cached candidates, `Bar` and `Baz`, are returned as
exactly those two, in the order the server gave them. -/
theorem complete_matches_witness :
    ∃ ms : Slice completionResult,
      complete 0 (.error "unused") (.error "unused") exampleCompletion
        = some (CompleteValue.matches ms, none, exampleCompletion) ∧
      ms.elems = exampleCandidates.Items.map (fun i =>
        (⟨i.Label, i.TextEdit.NewText, i.Detail⟩ : completionResult)) ∧
      ms.elems.length = exampleCandidates.Items.length :=
  complete_matches 0 (.error "unused") (.error "unused") exampleCompletion exampleCandidates
    (by decide) (by decide)

/-! ## Completion cache -/

/-- C11 (as amended): with a cached completion list, a get-matches call of
complete (first argument not 1) leaves the state exactly as it was, so the
session still holds the same cached list afterwards and a second get-matches
call returns the same records. The cache is replaced only by a find-start call
that obtains a reply from the server: such a call stores the reply, a
find-start call that fails to get the cursor position or the completion returns
its error and leaves the state as it was, and no call of complete changes the
cached list in any other way. -/
theorem complete_keeps_cache (findstart : Int) (cursor : Except String CursorPos)
    (completion : Except String (Option CompletionList)) (v : vimstate) (res : CompletionList)
    (hfind : findstart ≠ 1) (hcache : v.lastCompleteResults = some res) :
    ∃ val v1, complete findstart cursor completion v = some (val, none, v1) ∧
      v1 = v ∧ v1.lastCompleteResults = some res ∧
      complete findstart cursor completion v1 = some (val, none, v1) ∧
      (∀ (c : CursorPos) (reply : Option CompletionList),
        complete 1 (.ok c) (.ok reply) v1
          = some (CompleteValue.col c.pos.Col, none,
              { v1 with lastCompleteResults := reply })) ∧
      (∀ (err : String) (comp : Except String (Option CompletionList)),
        complete 1 (.error err) comp v1
          = some (CompleteValue.nil, some ("failed to get current position: " ++ err), v1)) ∧
      (∀ (c : CursorPos) (err : String),
        complete 1 (.ok c) (.error err) v1
          = some (CompleteValue.nil, some ("called to gopls.Completion failed: " ++ err), v1)) ∧
      (∀ (fs : Int) (cur : Except String CursorPos)
          (comp : Except String (Option CompletionList))
          (r : CompleteValue × Option String × vimstate),
        complete fs cur comp v1 = some r →
        r.2.2 = v1 ∨
          (fs = 1 ∧ ∃ c reply, cur = .ok c ∧ comp = .ok reply ∧
            r.2.2 = { v1 with lastCompleteResults := reply })) := by
  have h : complete findstart cursor completion v
      = some (CompleteValue.matches (completeMatches res.Items none), none, v) := by
    simp [complete, hfind, hcache]
  refine ⟨_, v, h, rfl, hcache, h, ?_, ?_, ?_, ?_⟩
  · intro c reply
    simp [complete]
  · intro err comp
    simp [complete]
  · intro c err
    simp [complete]
  · intro fs cur comp r hr
    by_cases hfs : fs = 1
    · subst hfs
      cases cur with
      | error err =>
        simp only [complete, if_true] at hr
        left
        cases hr
        rfl
      | ok c =>
        cases comp with
        | error err =>
          simp only [complete, if_true] at hr
          left
          cases hr
          rfl
        | ok reply =>
          simp only [complete, if_true] at hr
          right
          cases hr
          exact ⟨rfl, c, reply, rfl, rfl, rfl⟩
    · left
      simp only [complete, if_neg hfs, hcache] at hr
      cases hr
      rfl

/-- Witness of C11 (as amended): the session that has cached two candidates. -/
theorem complete_keeps_cache_witness :
    ∃ val v1, complete 0 (.error "unused") (.error "unused") exampleCompletion
        = some (val, none, v1) ∧
      v1 = exampleCompletion ∧ v1.lastCompleteResults = some exampleCandidates ∧
      complete 0 (.error "unused") (.error "unused") v1 = some (val, none, v1) ∧
      (∀ (c : CursorPos) (reply : Option CompletionList),
        complete 1 (.ok c) (.ok reply) v1
          = some (CompleteValue.col c.pos.Col, none,
              { v1 with lastCompleteResults := reply })) ∧
      (∀ (err : String) (comp : Except String (Option CompletionList)),
        complete 1 (.error err) comp v1
          = some (CompleteValue.nil, some ("failed to get current position: " ++ err), v1)) ∧
      (∀ (c : CursorPos) (err : String),
        complete 1 (.ok c) (.error err) v1
          = some (CompleteValue.nil, some ("called to gopls.Completion failed: " ++ err), v1)) ∧
      (∀ (fs : Int) (cur : Except String CursorPos)
          (comp : Except String (Option CompletionList))
          (r : CompleteValue × Option String × vimstate),
        complete fs cur comp v1 = some r →
        r.2.2 = v1 ∨
          (fs = 1 ∧ ∃ c reply, cur = .ok c ∧ comp = .ok reply ∧
            r.2.2 = { v1 with lastCompleteResults := reply })) :=
  complete_keeps_cache 0 (.error "unused") (.error "unused") exampleCompletion exampleCandidates
    (by decide) (by decide)

/-- Counterexample to C11 as stated: after a get-matches call on the session
that has cached two candidates, lastCompleteResults still holds them. -/
theorem complete_idle_counterexample :
    (complete 0 (.error "unused") (.error "unused") exampleCompletion).map
        (fun r => r.2.2.lastCompleteResults)
      = some (some exampleCandidates) ∧
    (some exampleCandidates : Option CompletionList) ≠ none := by
  decide

/-! ## Navigation without a single definition -/

/-- C17: when the mode argument is accepted, the cursor position is obtained and
the server answers with a list of locations, gotoDef returns success if the
list is empty and an error if it has more than one member; in both cases it
loads no location and leaves the state, jump stack and cursor included, as it
was. -/
theorem gotoDef_no_navigation (q : DefQuery) (v : vimstate) (c : CursorPos)
    (locs : List Location) (hmode : modeAccepted q = true)
    (hcur : q.cursor = .ok c) (hdef : q.definition = .ok locs) :
    (locs.length = 0 →
      gotoDef q v
        = some (none, v, [NavEffect.ex "echorerr \"No definition exists under cursor\""])) ∧
    (1 < locs.length →
      gotoDef q v
        = some (some "got multiple locations; don't know how to handle this", v, [])) := by
  constructor
  · intro h
    have : locs = [] := List.length_eq_zero.1 h
    subst this
    simp [gotoDef, hmode, hcur, hdef]
  · intro h
    match locs, h with
    | l1 :: l2 :: rest, _ => simp [gotoDef, hmode, hcur, hdef]

/-- Witness of C17: the server answers with two locations. -/
theorem gotoDef_no_navigation_witness :
    (exampleTwoLocations.length = 0 →
      gotoDef exampleAmbiguous exampleNav
        = some (none, exampleNav,
            [NavEffect.ex "echorerr \"No definition exists under cursor\""])) ∧
    (1 < exampleTwoLocations.length →
      gotoDef exampleAmbiguous exampleNav
        = some (some "got multiple locations; don't know how to handle this", exampleNav, [])) :=
  gotoDef_no_navigation exampleAmbiguous exampleNav ⟨⟨1, "/a.go", [], 0⟩, ⟨3, 1, 0⟩, ⟨2, 0⟩⟩
    exampleTwoLocations rfl rfl rfl

/-! ## Bounds of the jump stack -/

theorem gotoDef_bounds (q : DefQuery) (v : vimstate)
    (h0 : 0 ≤ v.jumpStackPos) (hlen : v.jumpStackPos ≤ v.jumpStack.length) :
    ∃ r, gotoDef q v = some r ∧
      0 ≤ r.2.1.jumpStackPos ∧ r.2.1.jumpStackPos ≤ r.2.1.jumpStack.length := by
  unfold gotoDef
  split
  · exact ⟨_, rfl, h0, hlen⟩
  · split
    · exact ⟨_, rfl, h0, hlen⟩
    · split
      · exact ⟨_, rfl, h0, hlen⟩
      · exact ⟨_, rfl, h0, hlen⟩
      · simp only [sliceTo, h0, hlen, and_self, if_true]
        refine ⟨_, rfl, (by simp only; omega), ?_⟩
        simp only [List.length_append, List.length_take, List.length_singleton]
        omega
      · exact ⟨_, rfl, h0, hlen⟩

theorem gotoPrevDef_bounds (load : Option String) (count : Int) (v : vimstate)
    (h0 : 0 ≤ v.jumpStackPos) (hlen : v.jumpStackPos ≤ v.jumpStack.length) (hc : 1 ≤ count) :
    ∃ r, gotoPrevDef load ⟨some count⟩ v = some r ∧
      0 ≤ r.2.1.jumpStackPos ∧ r.2.1.jumpStackPos ≤ r.2.1.jumpStack.length := by
  by_cases hp : v.jumpStackPos = 0
  · exact ⟨(none, v, [NavEffect.ex "echom \"Already at top of stack\""]),
      by simp [gotoPrevDef, hp], h0, hlen⟩
  · have hlt : (max (v.jumpStackPos - count) 0).toNat < v.jumpStack.length := by omega
    have hmax : (if v.jumpStackPos - count < 0 then 0 else v.jumpStackPos - count)
        = max (v.jumpStackPos - count) 0 := by
      split <;> omega
    have hnn : 0 ≤ max (v.jumpStackPos - count) 0 := by omega
    refine ⟨(load, { v with jumpStackPos := max (v.jumpStackPos - count) 0 },
      [NavEffect.loadLocation (v.jumpStack.get ⟨_, hlt⟩)]), ?_, hnn, ?_⟩
    · simp only [gotoPrevDef, if_neg hp, hmax, index]
      rw [if_pos hnn, List.get?_eq_get hlt]
    · simp only
      omega

/-- C18: starting from the empty jump stack with cursor 0, every sequence of
gotoDef calls and of gotoPrevDef calls with counts at least 1 runs without a
run-time panic, so the slice `jumpStack[:jumpStackPos]` and the lookup
`jumpStack[jumpStackPos]` are in range at every call, and leaves
`0 ≤ jumpStackPos ≤ len(jumpStack)`. -/
theorem jump_stack_bounds (calls : List NavCall) (v : vimstate)
    (hempty : v.jumpStack = [] ∧ v.jumpStackPos = 0)
    (hcount : ∀ call ∈ calls, call.countOk = true) :
    ∃ v1, runNav calls v = some v1 ∧
      0 ≤ v1.jumpStackPos ∧ v1.jumpStackPos ≤ v1.jumpStack.length := by
  have hgen : ∀ (calls : List NavCall) (v : vimstate),
      (∀ call ∈ calls, call.countOk = true) →
      0 ≤ v.jumpStackPos → v.jumpStackPos ≤ v.jumpStack.length →
      ∃ v1, runNav calls v = some v1 ∧
        0 ≤ v1.jumpStackPos ∧ v1.jumpStackPos ≤ v1.jumpStack.length := by
    intro calls
    induction calls with
    | nil => intro v _ h0 hlen; exact ⟨v, rfl, h0, hlen⟩
    | cons call rest ih =>
      intro v hc h0 hlen
      have hrest : ∀ call ∈ rest, call.countOk = true := fun x hx => hc x (by simp [hx])
      cases call with
      | gotoDef q =>
        obtain ⟨r, hr, h1, h2⟩ := gotoDef_bounds q v h0 hlen
        obtain ⟨v1, hv1, h3⟩ := ih r.2.1 hrest h1 h2
        exact ⟨v1, by simp only [runNav, hr]; exact hv1, h3⟩
      | gotoPrevDef load count =>
        have hcnt : 1 ≤ count := by
          have := hc (NavCall.gotoPrevDef load count) (by simp)
          simpa [NavCall.countOk] using this
        obtain ⟨r, hr, h1, h2⟩ := gotoPrevDef_bounds load count v h0 hlen hcnt
        obtain ⟨v1, hv1, h3⟩ := ih r.2.1 hrest h1 h2
        exact ⟨v1, by simp only [runNav, hr]; exact hv1, h3⟩
  exact hgen calls v hcount (by simp [hempty.2]) (by simp [hempty.1, hempty.2])

/-- Witness of C18: two definitions, back by 5, a definition, back by 1 twice. -/
theorem jump_stack_bounds_witness :
    ∃ v1, runNav exampleNavCalls emptySession = some v1 ∧
      0 ≤ v1.jumpStackPos ∧ v1.jumpStackPos ≤ v1.jumpStack.length :=
  jump_stack_bounds exampleNavCalls emptySession (by decide) (by decide)

/-! ## Line mutations, edit by edit -/

theorem stripNewline_cases (t x : Text)
    (hx : t = x ++ ['\n'] ∨ (t = x ∧ x.getLast? ≠ some '\n')) : stripNewline t = x := by
  rcases hx with h | ⟨h, hlast⟩
  · subst h
    simp [stripNewline]
  · subst h
    simp [stripNewline, hlast]

theorem editLoop_insert (pfp : Buffer → Position → Except String Point) (b : Buffer)
    (e : TextEdit) (s : LoopState) (start stop : Point) (x : Text)
    (hs : pfp b e.Range.Start = .ok start) (he : pfp b e.Range.End = .ok stop)
    (hcol : start.Col = 1 ∧ stop.Col = 1) (hline : start.Line = stop.Line)
    (htext : e.NewText ≠ [])
    (hx : e.NewText = x ++ ['\n'] ∨ (e.NewText = x ∧ x.getLast? ≠ some '\n'))
    (h1 : 1 ≤ start.Line) (hin : start.Line - 1 ≤ s.lines.length) :
    editLoop pfp b [e] s
      = (none, ⟨s.lines.take (start.Line - 1) ++ splitNewline x ++ s.lines.drop (start.Line - 1),
          s.calls ++ [VimCall.append ((start.Line : Int) - 1) (splitNewline x)]⟩) := by
  have hap : append s.lines ((start.Line : Int) - 1) (splitNewline x)
      = (s.lines.take (start.Line - 1) ++ splitNewline x ++ s.lines.drop (start.Line - 1), 0) := by
    unfold append
    rw [if_neg (by omega)]
    have : ((start.Line : Int) - 1).toNat = start.Line - 1 := by omega
    rw [this]
  rw [hline] at hap
  simp only [editLoop, hs, he, hcol.1, hcol.2, ne_eq, not_true_eq_false, or_self, if_false,
    hline, htext, stripNewline_cases e.NewText x hx, hap]

/-- C15 (as amended): for an edit whose two ends resolve to column 1 of the
same line and whose replacement text `T` is not empty, let `x` be `T` without
its final newline if `T` ends with one, and `T` itself otherwise. When the loop
of formatCurrentBuffer reaches the edit, with the buffer in any state that has
line `start.line - 1`, it returns no error and requests exactly one line
mutation, an `append` below line `start.line - 1` of the pieces of `x` between
its newlines (they hold no newline and, each followed by a newline, make up `x`
followed by a newline); every former line of the buffer is kept, those up to
`start.line - 1` above the new lines and the others below them. So an edit list
made of this edit alone inserts those lines into the buffer, and an edit list
that gives accepted edits after it inserts them into what those edits left. -/
theorem line_insertion (pfp : Buffer → Position → Except String Point) (b : Buffer)
    (e : TextEdit) (s : LoopState) (after : List TextEdit) (ls : List Text)
    (start stop : Point) (x : Text)
    (hs : pfp b e.Range.Start = .ok start) (he : pfp b e.Range.End = .ok stop)
    (hcol : start.Col = 1 ∧ stop.Col = 1) (hline : start.Line = stop.Line)
    (htext : e.NewText ≠ [])
    (hx : e.NewText = x ++ ['\n'] ∨ (e.NewText = x ∧ x.getLast? ≠ some '\n'))
    (h1 : 1 ≤ start.Line) (hin : start.Line - 1 ≤ s.lines.length) :
    editLoop pfp b [e] s
      = (none, ⟨s.lines.take (start.Line - 1) ++ splitNewline x ++ s.lines.drop (start.Line - 1),
          s.calls ++ [VimCall.append ((start.Line : Int) - 1) (splitNewline x)]⟩) ∧
    (bufContents (splitNewline x) = x ++ ['\n'] ∧ ∀ l ∈ splitNewline x, '\n' ∉ l) ∧
    (start.Line - 1 ≤ ls.length →
      formatLoop pfp b [e] ls
        = (none, ⟨ls.take (start.Line - 1) ++ splitNewline x ++ ls.drop (start.Line - 1),
            [VimCall.append ((start.Line : Int) - 1) (splitNewline x)]⟩)) ∧
    ((formatLoop pfp b after ls).1 = none →
      start.Line - 1 ≤ (formatLoop pfp b after ls).2.lines.length →
      formatLoop pfp b (e :: after) ls
        = (none, ⟨(formatLoop pfp b after ls).2.lines.take (start.Line - 1) ++ splitNewline x
              ++ (formatLoop pfp b after ls).2.lines.drop (start.Line - 1),
            (formatLoop pfp b after ls).2.calls
              ++ [VimCall.append ((start.Line : Int) - 1) (splitNewline x)]⟩)) := by
  have hstep := fun s hin =>
    editLoop_insert pfp b e s start stop x hs he hcol hline htext hx h1 hin
  refine ⟨hstep s hin, ⟨bufContents_splitNewline x, splitNewline_no_newline x⟩, ?_, ?_⟩
  · intro hls
    rw [formatLoop_single, hstep ⟨ls, []⟩ hls]
    simp
  · intro hacc hlen
    rw [formatLoop_cons, if_pos hacc, hstep _ hlen]

/-- Witness of C15 (as amended): the text `x`, newline, `y`, newline is
inserted as the two lines `x` and `y` below line 1, alone and after an
insertion below line 2. -/
theorem line_insertion_witness :
    editLoop PointFromPosition ⟨1, "a.go", "a\nb\n".toList, 0⟩
        [⟨⟨⟨1, 0⟩, ⟨1, 0⟩⟩, "x\ny\n".toList⟩] ⟨["a".toList, "b".toList], []⟩
      = (none, ⟨["a".toList, "x".toList, "y".toList, "b".toList],
          [VimCall.append 1 ["x".toList, "y".toList]]⟩) ∧
    (bufContents (splitNewline "x\ny".toList) = "x\ny".toList ++ ['\n'] ∧
      ∀ l ∈ splitNewline "x\ny".toList, '\n' ∉ l) ∧
    (2 - 1 ≤ ["a".toList, "b".toList].length →
      formatLoop PointFromPosition ⟨1, "a.go", "a\nb\n".toList, 0⟩
          [⟨⟨⟨1, 0⟩, ⟨1, 0⟩⟩, "x\ny\n".toList⟩] ["a".toList, "b".toList]
        = (none, ⟨["a".toList, "x".toList, "y".toList, "b".toList],
            [VimCall.append 1 ["x".toList, "y".toList]]⟩)) ∧
    ((formatLoop PointFromPosition ⟨1, "a.go", "a\nb\n".toList, 0⟩
        [⟨⟨⟨2, 0⟩, ⟨2, 0⟩⟩, "z\n".toList⟩] ["a".toList, "b".toList]).1 = none →
      2 - 1 ≤ (formatLoop PointFromPosition ⟨1, "a.go", "a\nb\n".toList, 0⟩
        [⟨⟨⟨2, 0⟩, ⟨2, 0⟩⟩, "z\n".toList⟩] ["a".toList, "b".toList]).2.lines.length →
      formatLoop PointFromPosition ⟨1, "a.go", "a\nb\n".toList, 0⟩
          (⟨⟨⟨1, 0⟩, ⟨1, 0⟩⟩, "x\ny\n".toList⟩ :: [⟨⟨⟨2, 0⟩, ⟨2, 0⟩⟩, "z\n".toList⟩])
          ["a".toList, "b".toList]
        = (none, ⟨["a".toList, "x".toList, "y".toList, "b".toList, "z".toList],
            [VimCall.append 2 ["z".toList], VimCall.append 1 ["x".toList, "y".toList]]⟩)) :=
  line_insertion PointFromPosition ⟨1, "a.go", "a\nb\n".toList, 0⟩
    ⟨⟨⟨1, 0⟩, ⟨1, 0⟩⟩, "x\ny\n".toList⟩ ⟨["a".toList, "b".toList], []⟩
    [⟨⟨⟨2, 0⟩, ⟨2, 0⟩⟩, "z\n".toList⟩] ["a".toList, "b".toList] ⟨2, 1, 2⟩ ⟨2, 1, 2⟩
    "x\ny".toList
    (by decide) (by decide) (by decide) (by decide) (by decide) (by decide) (by decide)
    (by decide)

/-- Counterexample to C15 as stated: the text `x`, newline splits on newlines
into the two pieces `x` and the empty string, but the loop inserts the single
line `x`. -/
theorem line_insertion_counterexample :
    splitNewline "x\n".toList = ["x".toList, []] ∧
    formatLoop PointFromPosition ⟨1, "a.go", "a\nb\n".toList, 0⟩
        [⟨⟨⟨1, 0⟩, ⟨1, 0⟩⟩, "x\n".toList⟩] ["a".toList, "b".toList]
      = (none, ⟨["a".toList, "x".toList, "b".toList], [VimCall.append 1 ["x".toList]]⟩) ∧
    (["a".toList, "x".toList, "b".toList] : List Text)
      ≠ ["a".toList] ++ splitNewline "x\n".toList ++ ["b".toList] := by
  decide

/-! ## Order of the line mutations -/

theorem editLoop_calls (pfp : Buffer → Position → Except String Point) (b : Buffer) :
    ∀ (r : List TextEdit) (s : LoopState), (editLoop pfp b r s).1 = none →
      (editLoop pfp b r s).2.calls = s.calls ++ r.filterMap (mutationOfEdit pfp b) := by
  intro r
  induction r with
  | nil => intro s _; simp [editLoop]
  | cons e rest ih =>
    intro s hacc
    cases hs : pfp b e.Range.Start with
    | error err => simp [editLoop, hs] at hacc
    | ok start =>
      cases he : pfp b e.Range.End with
      | error err => simp [editLoop, hs, he] at hacc
      | ok stop =>
        by_cases hcol : start.Col ≠ 1 ∨ stop.Col ≠ 1
        · simp [editLoop, hs, he, hcol] at hacc
        · by_cases hline : start.Line ≠ stop.Line
          · by_cases htext : e.NewText ≠ []
            · simp [editLoop, hs, he, hcol, hline, htext] at hacc
            · by_cases hres : (deletebufline s.lines (start.Line : Int)
                  ((stop.Line : Int) - 1)).2 ≠ 0
              · simp only [editLoop, hs, he, if_neg hcol, if_pos hline, if_neg htext,
                  if_pos hres] at hacc
                cases hacc
              · simp only [editLoop, hs, he, if_neg hcol, if_pos hline, if_neg htext,
                  if_neg hres] at hacc ⊢
                rw [ih _ hacc]
                simp [List.filterMap_cons, mutationOfEdit, hs, he, hline]
          · by_cases htext : e.NewText = []
            · simp only [editLoop, hs, he, if_neg hcol, if_neg hline, if_pos htext] at hacc ⊢
              rw [ih _ hacc]
              simp [List.filterMap_cons, mutationOfEdit, hs, he, hline, htext]
            · simp only [editLoop, hs, he, if_neg hcol, if_neg hline, if_neg htext] at hacc ⊢
              rw [ih _ hacc]
              simp [List.filterMap_cons, mutationOfEdit, hs, he, hline, htext]

theorem take_deletebufline (lines : List Text) (first last : Int) (m : Nat)
    (hm : (m : Int) < first) :
    (deletebufline lines first last).1.take m = lines.take m := by
  unfold deletebufline
  split
  · rfl
  · next hok =>
    simp only
    rw [List.take_append_of_le_length (by rw [List.length_take]; omega), List.take_take]
    congr 1
    omega

theorem take_append (lines : List Text) (lnum : Int) (text : List Text) (m : Nat)
    (hm : (m : Int) ≤ lnum) :
    (append lines lnum text).1.take m = lines.take m := by
  unfold append
  split
  · rfl
  · next hok =>
    simp only
    rw [List.append_assoc, List.take_append_of_le_length (by rw [List.length_take]; omega),
      List.take_take]
    congr 1
    omega

theorem editLoop_take (pfp : Buffer → Position → Except String Point) (b : Buffer) (m : Nat) :
    ∀ (r : List TextEdit) (s : LoopState), (∀ e ∈ r, (m : Int) < startLineOf pfp b e) →
      (editLoop pfp b r s).2.lines.take m = s.lines.take m := by
  intro r
  induction r with
  | nil => intro s _; rfl
  | cons e rest ih =>
    intro s hall
    have hrest : ∀ e' ∈ rest, (m : Int) < startLineOf pfp b e' :=
      fun e' he' => hall e' (by simp [he'])
    have hm := hall e (by simp)
    cases hs : pfp b e.Range.Start with
    | error err => simp [editLoop, hs]
    | ok start =>
      have hm' : (m : Int) < (start.Line : Int) := by
        simpa [startLineOf, hs] using hm
      cases he : pfp b e.Range.End with
      | error err => simp [editLoop, hs, he]
      | ok stop =>
        simp only [editLoop, hs, he]
        split
        · rfl
        · split
          · split
            · rfl
            · split
              · exact take_deletebufline _ _ _ _ hm'
              · rw [ih _ hrest]
                exact take_deletebufline _ _ _ _ hm'
          · split
            · exact ih _ hrest
            · rw [ih _ hrest]
              exact take_append _ _ _ _ (by omega)

theorem firstLine_mutationOfEdit (pfp : Buffer → Position → Except String Point) (b : Buffer)
    (e : TextEdit) (call : VimCall) (h : mutationOfEdit pfp b e = some call) :
    call.firstLine = startLineOf pfp b e := by
  unfold mutationOfEdit at h
  unfold startLineOf
  cases hs : pfp b e.Range.Start with
  | error err => simp [hs] at h
  | ok start =>
    cases he : pfp b e.Range.End with
    | error err => simp [hs, he] at h
    | ok stop =>
      simp only [hs, he] at h
      split at h
      · cases h; rfl
      · split at h
        · cases h
        · cases h; simp [VimCall.firstLine]

/-- C16 (as amended): for an edit list that formatCurrentBuffer accepts, the
line mutations are issued in the reverse of the order in which the list gives
the edits, one per edit that removes lines or inserts text. When the list is in
ascending order of start line this is from the bottom-most edit to the top-most:
the first lines touched by successive mutations do not increase. Each mutation
leaves the lines above the start line of its edit as they were, so the lines
above every edit already visited are still those of the original buffer when
the loop reaches the edits listed before them. -/
theorem mutations_in_reverse_order (pfp : Buffer → Position → Except String Point)
    (b : Buffer) (edits : List TextEdit) (ls : List Text)
    (hacc : (formatLoop pfp b edits ls).1 = none) :
    (formatLoop pfp b edits ls).2.calls = edits.reverse.filterMap (mutationOfEdit pfp b) ∧
    (edits.Pairwise (fun x y => startLineOf pfp b x ≤ startLineOf pfp b y) →
      ((formatLoop pfp b edits ls).2.calls.map VimCall.firstLine).Pairwise
        (fun x y => y ≤ x)) ∧
    (∀ (pending visited : List TextEdit) (m : Nat), edits = pending ++ visited →
      (∀ e ∈ visited, (m : Int) < startLineOf pfp b e) →
      (formatLoop pfp b visited ls).2.lines.take m = ls.take m) := by
  have hcalls : (formatLoop pfp b edits ls).2.calls
      = edits.reverse.filterMap (mutationOfEdit pfp b) := by
    have := editLoop_calls pfp b edits.reverse ⟨ls, []⟩ hacc
    simpa [formatLoop] using this
  refine ⟨hcalls, ?_, ?_⟩
  · intro hord
    rw [hcalls, List.pairwise_map]
    have hrev : edits.reverse.Pairwise
        (fun x y => startLineOf pfp b y ≤ startLineOf pfp b x) :=
      List.pairwise_reverse.2 hord
    rw [List.pairwise_filterMap]
    refine hrev.imp ?_
    intro x y hxy c1 h1 c2 h2
    rw [firstLine_mutationOfEdit pfp b x c1 (by simpa using h1),
      firstLine_mutationOfEdit pfp b y c2 (by simpa using h2)]
    exact hxy
  · intro pending visited m _ hm
    exact editLoop_take pfp b m visited.reverse ⟨ls, []⟩
      (fun e he => hm e (List.mem_reverse.1 he))

/-- Witness of C16 (as amended): the ascending edit list on the buffer of three
lines. -/
theorem mutations_in_reverse_order_witness :
    (formatLoop PointFromPosition exampleBuffer exampleEdits
        ["a".toList, "b".toList, "c".toList]).2.calls
      = exampleEdits.reverse.filterMap (mutationOfEdit PointFromPosition exampleBuffer) ∧
    (exampleEdits.Pairwise (fun x y => startLineOf PointFromPosition exampleBuffer x
        ≤ startLineOf PointFromPosition exampleBuffer y) →
      ((formatLoop PointFromPosition exampleBuffer exampleEdits
        ["a".toList, "b".toList, "c".toList]).2.calls.map VimCall.firstLine).Pairwise
          (fun x y => y ≤ x)) ∧
    (∀ (pending visited : List TextEdit) (m : Nat), exampleEdits = pending ++ visited →
      (∀ e ∈ visited, (m : Int) < startLineOf PointFromPosition exampleBuffer e) →
      (formatLoop PointFromPosition exampleBuffer visited
        ["a".toList, "b".toList, "c".toList]).2.lines.take m
        = ["a".toList, "b".toList, "c".toList].take m) :=
  mutations_in_reverse_order PointFromPosition exampleBuffer exampleEdits
    ["a".toList, "b".toList, "c".toList] (by decide)

/-- Counterexample to C16 as stated: the list gives an insertion below line 2
before an insertion above line 1. formatCurrentBuffer accepts it and issues the
mutation of the top-most edit first (first lines touched: 1, then 3); that
insertion shifts the lines, and the other text lands between `a` and `b`
instead of below `b`. -/
theorem processing_order_counterexample :
    formatLoop PointFromPosition ⟨1, "a.go", "a\nb\n".toList, 0⟩
        [⟨⟨⟨2, 0⟩, ⟨2, 0⟩⟩, "y\n".toList⟩, ⟨⟨⟨0, 0⟩, ⟨0, 0⟩⟩, "x\n".toList⟩]
        ["a".toList, "b".toList]
      = (none, ⟨["x".toList, "a".toList, "y".toList, "b".toList],
          [VimCall.append 0 ["x".toList], VimCall.append 2 ["y".toList]]⟩) ∧
    [VimCall.append 0 ["x".toList], VimCall.append 2 ["y".toList]].map VimCall.firstLine
      = [1, 3] ∧
    ¬ ([1, 3] : List Int).Pairwise (fun x y => y ≤ x) := by
  decide

/-! ## rename.Run -/

theorem renameRun_loop (w : RenameWorld) (r : RenameFlags) (args : List String)
    (changes : List DocumentChange) (hargs : args.length = 2) (hconn : w.connect = none)
    (hfile : w.fileErr = none) (hloc : w.location = none) (hren : w.rename = .ok changes) :
    renameRun w r args
      = renameLoop w r (collectEdits w changes ([], [])).1 (orderedURIs w changes).length
          (orderedURIs w changes) (orderedURIs w changes).length [] := by
  simp [renameRun, hargs, hconn, hfile, hloc, hren, orderedURIs]

/-- C12 (the code at the failing input): the server names `a.go` in two document
changes. The edits of both are grouped under the one URI, but `orderedURIs`
holds the URI twice, and the file is rendered twice: in preview mode the new
content is printed twice, each time under a header, and in write mode with
`-preserve` the file is renamed to `.orig` and written twice. -/
theorem rename_same_file_twice :
    orderedURIs (exampleRename exampleSameFile) exampleSameFile
      = ["file:///a.go", "file:///a.go"] ∧
    renameRun (exampleRename exampleSameFile) ⟨false, false, false⟩ ["a.go:1:1", "z"]
      = (none, [Output.stdout "a.go:\n".toList, Output.stdout "x\na\ny\nb\n".toList,
          Output.stdout "\n".toList,
          Output.stdout "a.go:\n".toList, Output.stdout "x\na\ny\nb\n".toList]) ∧
    renameRun (exampleRename exampleSameFile) ⟨false, true, true⟩ ["a.go:1:1", "z"]
      = (none, [Output.stderr "/a.go\n".toList, Output.osRename "/a.go" "/a.go.orig",
          Output.writeFile "/a.go" "x\na\ny\nb\n".toList,
          Output.stderr "/a.go\n".toList, Output.osRename "/a.go" "/a.go.orig",
          Output.writeFile "/a.go" "x\na\ny\nb\n".toList]) := by
  have hc : collectEdits (exampleRename exampleSameFile) exampleSameFile ([], [])
      = ([("file:///a.go", [⟨⟨⟨0, 0⟩, ⟨0, 0⟩⟩, "x\n".toList⟩, ⟨⟨⟨1, 0⟩, ⟨1, 0⟩⟩, "y\n".toList⟩])],
          ["file:///a.go", "file:///a.go"]) := by
    decide
  have hs : sortURIs ["file:///a.go", "file:///a.go"] = ["file:///a.go", "file:///a.go"] := by
    simp [sortURIs]
  have hrun : ∀ r : RenameFlags,
      renameRun (exampleRename exampleSameFile) r ["a.go:1:1", "z"]
        = renameLoop (exampleRename exampleSameFile) r
            [("file:///a.go",
              [⟨⟨⟨0, 0⟩, ⟨0, 0⟩⟩, "x\n".toList⟩, ⟨⟨⟨1, 0⟩, ⟨1, 0⟩⟩, "y\n".toList⟩])]
            2 ["file:///a.go", "file:///a.go"] 2 [] := by
    intro r
    rw [renameRun_loop (exampleRename exampleSameFile) r ["a.go:1:1", "z"] exampleSameFile
      rfl rfl rfl rfl rfl, orderedURIs, hc, hs]
    rfl
  refine ⟨?_, ?_, ?_⟩
  · rw [orderedURIs, hc, hs]
  · rw [hrun]; decide
  · rw [hrun]; decide

theorem stdoutOf_append (a b : List Output) : stdoutOf (a ++ b) = stdoutOf a ++ stdoutOf b := by
  induction a with
  | nil => rfl
  | cons o rest ih =>
    cases o <;> simp [stdoutOf, ih]

theorem previewLayout_cons (header : Bool) (f : String × Text) (rest : List (String × Text)) :
    previewLayout header (f :: rest)
      = (if header then f.1.toList ++ ":\n".toList else []) ++ f.2
          ++ (if rest = [] then [] else ['\n']) ++ previewLayout header rest := by
  cases rest with
  | nil => simp [previewLayout]
  | cons g rest => simp [previewLayout]

theorem renameLoop_preview (w : RenameWorld) (r : RenameFlags) (hw : r.Write = false)
    (hd : r.Diff = false) (edits : List (String × List TextEdit)) (n : Nat)
    (nc : String → Text) :
    ∀ (l : List String) (out : List Output),
      (∀ u ∈ l, newContentOf w edits (w.uriFromURI u) = .ok (nc u)) →
      ∃ outs, renameLoop w r edits n l (l.length : Int) out = (none, out ++ outs) ∧
        (∀ o ∈ outs, ∃ t, o = Output.stdout t) ∧
        stdoutOf outs = previewLayout (decide (1 < n))
          (l.map (fun u => (w.base (w.filename (w.uriFromURI u)), nc u))) := by
  intro l
  induction l with
  | nil =>
    intro out _
    exact ⟨[], by simp [renameLoop], by simp, rfl⟩
  | cons u rest ih =>
    intro out hall
    have hu := hall u (by simp)
    obtain ⟨ds, hds, hnc⟩ : ∃ ds, renameEditsOf w edits (w.uriFromURI u) = .ok ds ∧
        ApplyEdits (w.content (w.uriFromURI u)) ds = nc u := by
      unfold newContentOf at hu
      split at hu
      · next ds hds => exact ⟨ds, hds, by injection hu⟩
      · cases hu
    have hcount : (((u :: rest).length : Nat) : Int) - 1 = (rest.length : Int) := by
      simp
    have hnl : (1 < (((u :: rest).length : Nat) : Int)) ↔ rest ≠ [] := by
      cases rest <;> simp
    have hstep : renameLoop w r edits n (u :: rest) (((u :: rest).length : Nat) : Int) out
        = renameLoop w r edits n rest (rest.length : Int)
            (out ++ ((if 1 < n then [Output.stdout
                ((w.base (w.filename (w.uriFromURI u))).toList ++ ":\n".toList)] else [])
              ++ [Output.stdout (nc u)]
              ++ (if rest ≠ [] then [Output.stdout ['\n']] else []))) := by
      simp only [renameLoop, hds, hw, hd, hnc, Bool.false_eq_true, if_false]
      rw [hcount]
      by_cases hn : 1 < n <;> by_cases hr : rest = []
      · rw [if_pos hn, if_neg (fun h => (hnl.1 h) hr), if_pos hn, if_neg (not_not.2 hr)]
        simp
      · rw [if_pos hn, if_pos (hnl.2 hr), if_pos hn, if_pos hr]
        simp
      · rw [if_neg hn, if_neg (fun h => (hnl.1 h) hr), if_neg hn, if_neg (not_not.2 hr)]
        simp
      · rw [if_neg hn, if_pos (hnl.2 hr), if_neg hn, if_pos hr]
        simp
    obtain ⟨outs, h1, h2, h3⟩ := ih
      (out ++ ((if 1 < n then [Output.stdout
            ((w.base (w.filename (w.uriFromURI u))).toList ++ ":\n".toList)] else [])
        ++ [Output.stdout (nc u)]
        ++ (if rest ≠ [] then [Output.stdout ['\n']] else [])))
      (fun x hx => hall x (by simp [hx]))
    refine ⟨(if 1 < n then [Output.stdout
            ((w.base (w.filename (w.uriFromURI u))).toList ++ ":\n".toList)] else [])
        ++ [Output.stdout (nc u)]
        ++ (if rest ≠ [] then [Output.stdout ['\n']] else []) ++ outs, ?_, ?_, ?_⟩
    · rw [hstep, h1, List.append_assoc]
    · intro o ho
      simp only [List.mem_append] at ho
      rcases ho with ((ho | ho) | ho) | ho
      · split at ho
        · exact ⟨_, by simpa using ho⟩
        · simp at ho
      · exact ⟨_, by simpa using ho⟩
      · split at ho
        · exact ⟨_, by simpa using ho⟩
        · simp at ho
      · exact h2 o ho
    · rw [List.map_cons, previewLayout_cons, stdoutOf_append, h3]
      by_cases hn : 1 < n <;> by_cases hr : rest = [] <;>
        simp [hn, hr, stdoutOf]

theorem collectEdits_snd (w : RenameWorld) :
    ∀ (changes : List DocumentChange) (acc : List (String × List TextEdit) × List String),
      (collectEdits w changes acc).2
        = acc.2 ++ (changes.filterMap (fun c => c.TextDocumentEdit)).map
            (fun t => w.fileURI t.URI) := by
  intro changes
  induction changes with
  | nil => intro acc; simp [collectEdits]
  | cons c rest ih =>
    intro acc
    obtain ⟨edits, ordered⟩ := acc
    cases hc : c.TextDocumentEdit with
    | none => simp [collectEdits, hc, ih]
    | some t => simp [collectEdits, hc, ih]

/-- The preview of rename.Run, member by member of `orderedURIs`: when
rename.Run gets a reply from the server and runs in the default mode (neither
`-w` nor `-d`), and the edits of every file apply, it returns no error and
writes to standard output only: for each member of `orderedURIs` in order (the
URIs of the text document edits of the reply, one per document change, sorted
ascending), a header line with the base name of the file, only when
`orderedURIs` has more than one member, then the new content of the file, then
a newline for every member but the last. With one member the output is the new
content alone; with none nothing is written. The members are the files touched
only when no file is named by two document changes. -/
theorem rename_preview_layout (w : RenameWorld) (r : RenameFlags) (args : List String)
    (changes : List DocumentChange) (nc : String → Text)
    (hargs : args.length = 2) (hconn : w.connect = none) (hfile : w.fileErr = none)
    (hloc : w.location = none) (hren : w.rename = .ok changes)
    (hw : r.Write = false) (hd : r.Diff = false)
    (hnc : ∀ u ∈ (changes.filterMap (fun c => c.TextDocumentEdit)).map
        (fun t => w.fileURI t.URI),
      newContentOf w (collectEdits w changes ([], [])).1 (w.uriFromURI u) = .ok (nc u)) :
    ∃ outs, renameRun w r args = (none, outs) ∧
      (∀ o ∈ outs, ∃ t, o = Output.stdout t) ∧
      (orderedURIs w changes).Perm ((changes.filterMap (fun c => c.TextDocumentEdit)).map
        (fun t => w.fileURI t.URI)) ∧
      (orderedURIs w changes).Sorted (fun a b => a ≤ b) ∧
      stdoutOf outs = previewLayout (decide (1 < (orderedURIs w changes).length))
        ((orderedURIs w changes).map
          (fun u => (w.base (w.filename (w.uriFromURI u)), nc u))) ∧
      (orderedURIs w changes = [] → outs = []) ∧
      (∀ u, orderedURIs w changes = [u] → stdoutOf outs = nc u) := by
  have hperm : (orderedURIs w changes).Perm
      ((changes.filterMap (fun c => c.TextDocumentEdit)).map (fun t => w.fileURI t.URI)) := by
    have := sortURIs_perm (collectEdits w changes ([], [])).2
    rw [collectEdits_snd] at this
    simpa [orderedURIs, collectEdits_snd] using this
  have hsorted : (orderedURIs w changes).Sorted (fun a b => a ≤ b) :=
    List.sorted_insertionSort (fun a b : String => a ≤ b) _
  obtain ⟨outs, h1, h2, h3⟩ := renameLoop_preview w r hw hd (collectEdits w changes ([], [])).1
    (orderedURIs w changes).length nc (orderedURIs w changes) []
    (fun u hu => hnc u (hperm.mem_iff.1 hu))
  have hrun := renameRun_loop w r args changes hargs hconn hfile hloc hren
  rw [List.nil_append] at h1
  refine ⟨outs, by rw [hrun, h1], h2, hperm, hsorted, h3, ?_, ?_⟩
  · intro hnil
    rw [hnil] at h1
    simp only [renameLoop] at h1
    exact (Prod.mk.inj h1).2.symm
  · intro u hu
    rw [h3, hu]
    simp [previewLayout]

/-- The preview of two files: the reply names `b.go`, then a file operation,
then `a.go`; the preview shows `a.go` first, then `b.go`, each under its header,
with one newline between them. -/
theorem rename_preview_layout_witness :
    ∃ outs, renameRun (exampleRename exampleTwoFiles) ⟨false, false, false⟩ ["a.go:1:1", "z"]
        = (none, outs) ∧
      (∀ o ∈ outs, ∃ t, o = Output.stdout t) ∧
      (orderedURIs (exampleRename exampleTwoFiles) exampleTwoFiles).Perm
        ((exampleTwoFiles.filterMap (fun c => c.TextDocumentEdit)).map
          (fun t => (exampleRename exampleTwoFiles).fileURI t.URI)) ∧
      (orderedURIs (exampleRename exampleTwoFiles) exampleTwoFiles).Sorted (fun a b => a ≤ b) ∧
      stdoutOf outs
        = previewLayout
            (decide (1 < (orderedURIs (exampleRename exampleTwoFiles) exampleTwoFiles).length))
            ((orderedURIs (exampleRename exampleTwoFiles) exampleTwoFiles).map
              (fun u => ((exampleRename exampleTwoFiles).base
                ((exampleRename exampleTwoFiles).filename
                  ((exampleRename exampleTwoFiles).uriFromURI u)),
                if u = "file:///a.go" then "a\ny\nb\n".toList else "x\na\nb\n".toList))) ∧
      (orderedURIs (exampleRename exampleTwoFiles) exampleTwoFiles = [] → outs = []) ∧
      (∀ u, orderedURIs (exampleRename exampleTwoFiles) exampleTwoFiles = [u] →
        stdoutOf outs = if u = "file:///a.go" then "a\ny\nb\n".toList else "x\na\nb\n".toList) :=
  rename_preview_layout (exampleRename exampleTwoFiles) ⟨false, false, false⟩ ["a.go:1:1", "z"]
    exampleTwoFiles
    (fun u => if u = "file:///a.go" then "a\ny\nb\n".toList else "x\na\nb\n".toList)
    rfl rfl rfl rfl rfl rfl rfl (by decide)

/-- C13 (the code at the failing input): the reply touches one file, `a.go`
(n = 1), which it names in two document changes; the new content of the file is
the four lines `x`, `a`, `y`, `b`. In default mode rename.Run returns no error
and writes to standard output only, but the output is not the new content
alone, which is the layout for one file: the header `a.go:` is printed although
a single file is touched, and header and content are printed twice with a
newline in between. -/
theorem rename_preview_one_file_twice :
    ((exampleSameFile.filterMap (fun c => c.TextDocumentEdit)).map
        (fun t => (exampleRename exampleSameFile).fileURI t.URI)).dedup = ["file:///a.go"] ∧
    newContentOf (exampleRename exampleSameFile)
        (collectEdits (exampleRename exampleSameFile) exampleSameFile ([], [])).1
        ((exampleRename exampleSameFile).uriFromURI "file:///a.go")
      = .ok "x\na\ny\nb\n".toList ∧
    previewLayout (decide (1 < ["file:///a.go"].length))
        [((exampleRename exampleSameFile).base ((exampleRename exampleSameFile).filename
            ((exampleRename exampleSameFile).uriFromURI "file:///a.go")), "x\na\ny\nb\n".toList)]
      = "x\na\ny\nb\n".toList ∧
    renameRun (exampleRename exampleSameFile) ⟨false, false, false⟩ ["a.go:1:1", "z"]
      = (none, [Output.stdout "a.go:\n".toList, Output.stdout "x\na\ny\nb\n".toList,
          Output.stdout "\n".toList,
          Output.stdout "a.go:\n".toList, Output.stdout "x\na\ny\nb\n".toList]) ∧
    stdoutOf (renameRun (exampleRename exampleSameFile) ⟨false, false, false⟩
        ["a.go:1:1", "z"]).2
      = "a.go:\nx\na\ny\nb\n\na.go:\nx\na\ny\nb\n".toList ∧
    stdoutOf (renameRun (exampleRename exampleSameFile) ⟨false, false, false⟩
        ["a.go:1:1", "z"]).2
      ≠ "x\na\ny\nb\n".toList := by
  have hc : collectEdits (exampleRename exampleSameFile) exampleSameFile ([], [])
      = ([("file:///a.go", [⟨⟨⟨0, 0⟩, ⟨0, 0⟩⟩, "x\n".toList⟩, ⟨⟨⟨1, 0⟩, ⟨1, 0⟩⟩, "y\n".toList⟩])],
          ["file:///a.go", "file:///a.go"]) := by
    decide
  have hs : sortURIs ["file:///a.go", "file:///a.go"] = ["file:///a.go", "file:///a.go"] := by
    simp [sortURIs]
  have hrun : renameRun (exampleRename exampleSameFile) ⟨false, false, false⟩ ["a.go:1:1", "z"]
      = (none, [Output.stdout "a.go:\n".toList, Output.stdout "x\na\ny\nb\n".toList,
          Output.stdout "\n".toList,
          Output.stdout "a.go:\n".toList, Output.stdout "x\na\ny\nb\n".toList]) := by
    rw [renameRun_loop (exampleRename exampleSameFile) ⟨false, false, false⟩ ["a.go:1:1", "z"]
      exampleSameFile rfl rfl rfl rfl rfl, orderedURIs, hc, hs]
    decide
  refine ⟨by decide, ?_, by decide, hrun, ?_, ?_⟩
  · rw [hc]
    decide
  · rw [hrun]
    decide
  · rw [hrun]
    decide

/-! ## mod.formatExplanation -/

theorem referenceOf_some (w : HoverWorld) (imp : Text) (req : Require) (options : Options)
    (isPrivate : Bool) : ∃ reference, referenceOf w imp (some req) options isPrivate
      = some reference := by
  unfold referenceOf
  split
  · split
    · exact ⟨_, rfl⟩
    · exact ⟨_, rfl⟩
  · exact ⟨_, rfl⟩

/-- C19: with a `req` and an `options` value that are not nil, formatExplanation
returns normally exactly when the text, after one trailing newline is removed,
splits into at least two lines. In that case `splt[0]`, `splt[1]`,
`splt[length-1]` and `splt[1:length-1]` are all in range; for a text of a
single line (the empty text included) the slice `splt[1:length-1]` is out of
range and the function panics. -/
theorem formatExplanation_returns_iff (w : HoverWorld) (text : Text) (req : Require)
    (options : Options) (isPrivate : Bool) :
    ((formatExplanation w text (some req) (some options) isPrivate).isSome = true ↔
      2 ≤ (splitNewline (stripNewline text)).length) ∧
    (2 ≤ (splitNewline (stripNewline text)).length →
      (index (splitNewline (stripNewline text)) 0).isSome = true ∧
      (index (splitNewline (stripNewline text)) 1).isSome = true ∧
      (index (splitNewline (stripNewline text))
        (((splitNewline (stripNewline text)).length : Int) - 1)).isSome = true ∧
      (sliceFromTo (splitNewline (stripNewline text)) 1
        (((splitNewline (stripNewline text)).length : Int) - 1)).isSome = true) ∧
    ((splitNewline (stripNewline text)).length < 2 →
      (splitNewline (stripNewline text)).length = 1 ∧
      sliceFromTo (splitNewline (stripNewline text)) 1
        (((splitNewline (stripNewline text)).length : Int) - 1) = none ∧
      formatExplanation w text (some req) (some options) isPrivate = none) := by
  have hne := splitNewline_ne_nil (stripNewline text)
  unfold formatExplanation
  match h : splitNewline (stripNewline text) with
  | [] => exact absurd h hne
  | [a] =>
    obtain ⟨reference, hr⟩ := referenceOf_some w a req options isPrivate
    simp [index, sliceFromTo, hr]
  | [a, b] =>
    simp [index, sliceFromTo]
  | [a, b, c] =>
    obtain ⟨reference, hr⟩ := referenceOf_some w c req options isPrivate
    simp [index, sliceFromTo, hr]
  | a :: b :: c :: d :: rest =>
    have hlen : ((a :: b :: c :: d :: rest).length : Int) = (rest.length : Int) + 4 := by
      simp only [List.length_cons]
      omega
    have h0 : index (a :: b :: c :: d :: rest) 0 = some a := by simp [index]
    have h1 : index (a :: b :: c :: d :: rest) 1 = some b := by simp [index]
    have hlt : (((a :: b :: c :: d :: rest).length : Int) - 1).toNat
        < (a :: b :: c :: d :: rest).length := by
      simp only [List.length_cons] at hlen ⊢
      omega
    have himp : index (a :: b :: c :: d :: rest) (((a :: b :: c :: d :: rest).length : Int) - 1)
        = some ((a :: b :: c :: d :: rest).get ⟨_, hlt⟩) := by
      unfold index
      rw [if_pos (by omega), List.get?_eq_get hlt]
    obtain ⟨reference, hr⟩ := referenceOf_some w ((a :: b :: c :: d :: rest).get ⟨_, hlt⟩) req
      options isPrivate
    have hmid : sliceFromTo (a :: b :: c :: d :: rest) 1
        (((a :: b :: c :: d :: rest).length : Int) - 1)
        = some (((a :: b :: c :: d :: rest).take
            (((a :: b :: c :: d :: rest).length : Int) - 1).toNat).drop (1 : Int).toNat) := by
      unfold sliceFromTo
      rw [if_pos ⟨by omega, by omega, by omega⟩]
    have h2 : ¬ (((a :: b :: c :: d :: rest).length : Int) = 2) := by omega
    have h3 : ¬ (((a :: b :: c :: d :: rest).length : Int) = 3) := by omega
    have hge : 2 ≤ (a :: b :: c :: d :: rest).length := by simp
    simp only [h0, h1, if_neg h2, himp, hr, if_neg h3, hmid, Option.isSome_some, true_iff, hge,
      forall_true_left, and_self, true_and]
    intro hcontra
    omega

end Govim
